import Mathlib

/-!
Shallow embedding of the expression calculator in `src/src/main.cpp`
(class `Calculator`): regex-based validation, innermost-first bracket
resolution, two-stack precedence evaluation, and a step trace.

Modelling conventions:
* C++ `double` values are modelled as `ℚ`.  All arithmetic reached by the
  claims is exact small-integer/decimal arithmetic, where IEEE doubles and
  rationals agree.  `std::pow` is modelled exactly for integer exponents
  (the only exponents the claims reach).
* C++ `std::string` working text is modelled as `List Char`; recorded steps
  are `String`s.
* Exceptions are modelled by `Except CalcError`.  Undefined behaviour of the
  C++ (`std::stack::top`/`pop` on an empty stack) is modelled by the
  distinguished error `stackUnderflow`.
* The mutable `steps` member survives a throw in the C++, so every function
  that records steps returns its `List String` in both the ok and the error
  case (a pair `Except CalcError _ × List String`).
* The `while (true)` resolution loop is modelled with explicit fuel; the
  distinguished error `outOfFuel` marks exhaustion (each iteration removes
  one opening bracket, so the fuel chosen in `evaluate` never runs out).
-/

deriving instance DecidableEq for Except

namespace Calculator

/-- Errors thrown by the C++ code (`std::invalid_argument` / `std::runtime_error`
messages), plus model artifacts (`stodFailure` for `std::stod` throwing,
`stackUnderflow` for C++ undefined behaviour on an empty `std::stack`,
`outOfFuel` for the fuel-based loop model). -/
inductive CalcError where
  | invalidFormat
  | mismatchedBrackets
  | unclosedBrackets
  | divisionByZero
  | invalidOperator
  | stodFailure
  | stackUnderflow
  | outOfFuel
  deriving DecidableEq, Repr

/-! ## Kernel-computable rational arithmetic

`Rat.add` and friends normalize through `Nat.gcd`, which is defined by
well-founded recursion and does not reduce inside the kernel, so concrete
runs of the model could not be checked by `decide`.  The model therefore
uses the operations below, built from a fuel-based Euclid, and
`qadd_eq` … `qinv_eq` prove them equal to the standard `ℚ` operations. -/

/-- Euclid's algorithm with fuel (enough fuel is supplied by `natGcd`). -/
def natGcdAux : Nat → Nat → Nat → Nat
  | 0, _, n => n
  | _ + 1, 0, n => n
  | fuel + 1, m + 1, n => natGcdAux fuel (n % (m + 1)) (m + 1)

def natGcd (m n : Nat) : Nat := natGcdAux (m + 1) m n

theorem natGcdAux_eq_gcd :
    ∀ fuel m n : Nat, m < fuel → natGcdAux fuel m n = Nat.gcd m n
  | 0, _, _, h => absurd h (Nat.not_lt_zero _)
  | _ + 1, 0, n, _ => by simp [natGcdAux]
  | fuel + 1, m + 1, n, h => by
    have hm : n % (m + 1) < fuel :=
      Nat.lt_of_lt_of_le (Nat.mod_lt n (Nat.succ_pos m)) (Nat.lt_succ_iff.mp h)
    rw [natGcdAux, natGcdAux_eq_gcd fuel (n % (m + 1)) (m + 1) hm, Nat.gcd_succ]

theorem natGcd_eq_gcd (m n : Nat) : natGcd m n = Nat.gcd m n :=
  natGcdAux_eq_gcd _ _ _ (Nat.lt_succ_self m)

theorem qmk_den_nz {d : ℤ} (hd : ¬d = 0) (m : Nat) :
    d.natAbs / natGcd m d.natAbs ≠ 0 := by
  rw [natGcd_eq_gcd]
  have h1 : 0 < d.natAbs := Int.natAbs_pos.mpr hd
  exact Nat.ne_of_gt (Nat.div_pos
    (Nat.le_of_dvd h1 (Nat.gcd_dvd_right m d.natAbs))
    (Nat.gcd_pos_of_pos_right m h1))

theorem qmk_reduced {d : ℤ} (hd : ¬d = 0) (n' : ℤ) :
    ((if n' < 0 then -((n'.natAbs / natGcd n'.natAbs d.natAbs : Nat) : ℤ)
      else ((n'.natAbs / natGcd n'.natAbs d.natAbs : Nat) : ℤ)).natAbs).Coprime
      (d.natAbs / natGcd n'.natAbs d.natAbs) := by
  have habs : (if n' < 0 then -((n'.natAbs / natGcd n'.natAbs d.natAbs : Nat) : ℤ)
      else ((n'.natAbs / natGcd n'.natAbs d.natAbs : Nat) : ℤ)).natAbs
      = n'.natAbs / natGcd n'.natAbs d.natAbs := by
    split
    · rw [Int.natAbs_neg, Int.natAbs_ofNat]
    · rw [Int.natAbs_ofNat]
  rw [habs, natGcd_eq_gcd]
  exact Nat.coprime_div_gcd_div_gcd
    (Nat.gcd_pos_of_pos_right _ (Int.natAbs_pos.mpr hd))

/-- The normalized rational `n / d`, with kernel-computable normalization. -/
def qmk (n d : ℤ) : ℚ :=
  if hd : d = 0 then 0
  else
    let n' : ℤ := if d < 0 then -n else n
    Rat.mk'
      (if n' < 0 then -((n'.natAbs / natGcd n'.natAbs d.natAbs : Nat) : ℤ)
       else ((n'.natAbs / natGcd n'.natAbs d.natAbs : Nat) : ℤ))
      (d.natAbs / natGcd n'.natAbs d.natAbs)
      (qmk_den_nz hd n'.natAbs) (qmk_reduced hd n')

theorem qmk_eq (n d : ℤ) : qmk n d = (n : ℚ) / (d : ℚ) := by
  rw [qmk]
  split
  · rename_i hd
    subst hd
    simp
  · rename_i hd
    rw [Rat.mk'_eq_divInt, Rat.divInt_eq_div]
    set n' : ℤ := if d < 0 then -n else n with hn'
    set g : Nat := natGcd n'.natAbs d.natAbs with hg
    have hg0 : g ≠ 0 := by
      rw [hg, natGcd_eq_gcd]
      exact Nat.ne_of_gt (Nat.gcd_pos_of_pos_right _ (Int.natAbs_pos.mpr hd))
    have hdvdn : g ∣ n'.natAbs := by rw [hg, natGcd_eq_gcd]; exact Nat.gcd_dvd_left _ _
    have hdvdd : g ∣ d.natAbs := by rw [hg, natGcd_eq_gcd]; exact Nat.gcd_dvd_right _ _
    have hgQ : ((g : ℚ)) ≠ 0 := Nat.cast_ne_zero.mpr hg0
    have hcastn : ((n'.natAbs / g : Nat) : ℚ) = (n'.natAbs : ℚ) / (g : ℚ) :=
      Nat.cast_div hdvdn hgQ
    have hcastd : ((d.natAbs / g : Nat) : ℚ) = (d.natAbs : ℚ) / (g : ℚ) :=
      Nat.cast_div hdvdd hgQ
    have hnum : ((if n' < 0 then -((n'.natAbs / g : Nat) : ℤ)
        else ((n'.natAbs / g : Nat) : ℤ) : ℤ) : ℚ) = (n' : ℚ) / (g : ℚ) := by
      split
      · rename_i hneg
        have habs : (n'.natAbs : ℚ) = -(n' : ℚ) := by
          rw [← Int.cast_natCast, Int.ofNat_natAbs_of_nonpos (le_of_lt hneg), Int.cast_neg]
        rw [Int.cast_neg, Int.cast_natCast, hcastn, habs, neg_div, neg_neg]
      · rename_i hpos
        have habs : (n'.natAbs : ℚ) = (n' : ℚ) := by
          rw [← Int.cast_natCast, Int.natAbs_of_nonneg (le_of_not_lt hpos)]
        rw [Int.cast_natCast, hcastn, habs]
    have hden : (((d.natAbs / g : Nat) : ℤ) : ℚ) = (d.natAbs : ℚ) / (g : ℚ) := by
      rw [Int.cast_natCast, hcastd]
    rw [hnum, hden, div_div_div_cancel_right₀ hgQ]
    by_cases hdneg : d < 0
    · have h1 : n' = -n := by rw [hn', if_pos hdneg]
      have h2 : (d.natAbs : ℚ) = -(d : ℚ) := by
        rw [← Int.cast_natCast, Int.ofNat_natAbs_of_nonpos (le_of_lt hdneg), Int.cast_neg]
      rw [h1, h2]
      push_cast
      rw [neg_div_neg_eq]
    · have h1 : n' = n := by rw [hn', if_neg hdneg]
      have h2 : (d.natAbs : ℚ) = (d : ℚ) := by
        rw [← Int.cast_natCast, Int.natAbs_of_nonneg (le_of_not_lt hdneg)]
      rw [h1, h2]

/-- Kernel-computable rational addition (equal to `+` by `qadd_eq`). -/
def qadd (a b : ℚ) : ℚ := qmk (a.num * b.den + b.num * a.den) (a.den * b.den)

/-- Kernel-computable rational subtraction (equal to `-` by `qsub_eq`). -/
def qsub (a b : ℚ) : ℚ := qmk (a.num * b.den - b.num * a.den) (a.den * b.den)

/-- Kernel-computable rational multiplication (equal to `*` by `qmul_eq`). -/
def qmul (a b : ℚ) : ℚ := qmk (a.num * b.num) (a.den * b.den)

/-- Kernel-computable rational division (equal to `/` by `qdiv_eq`). -/
def qdiv (a b : ℚ) : ℚ := qmk (a.num * b.den) (a.den * b.num)

/-- Kernel-computable rational inverse (equal to `⁻¹` by `qinv_eq`). -/
def qinv (a : ℚ) : ℚ := qmk (a.den : ℤ) a.num

theorem qden_nzQ (a : ℚ) : ((a.den : ℤ) : ℚ) ≠ 0 := by
  rw [Int.cast_natCast]
  exact Nat.cast_ne_zero.mpr a.den_nz

theorem qexpand (a : ℚ) : (a : ℚ) = ((a.num : ℤ) : ℚ) / ((a.den : ℤ) : ℚ) := by
  rw [Int.cast_natCast, Rat.num_div_den]

theorem qadd_eq (a b : ℚ) : qadd a b = a + b := by
  rw [qadd, qmk_eq]
  conv_rhs => rw [qexpand a, qexpand b]
  rw [div_add_div _ _ (qden_nzQ a) (qden_nzQ b)]
  push_cast
  ring_nf

theorem qsub_eq (a b : ℚ) : qsub a b = a - b := by
  rw [qsub, qmk_eq]
  conv_rhs => rw [qexpand a, qexpand b]
  rw [div_sub_div _ _ (qden_nzQ a) (qden_nzQ b)]
  push_cast
  ring_nf

theorem qmul_eq (a b : ℚ) : qmul a b = a * b := by
  rw [qmul, qmk_eq]
  conv_rhs => rw [qexpand a, qexpand b]
  rw [div_mul_div_comm]
  push_cast
  ring_nf

theorem qdiv_eq (a b : ℚ) : qdiv a b = a / b := by
  by_cases hb : b = 0
  · subst hb
    rw [qdiv, div_zero]
    have h1 : ((0 : ℚ).num : ℤ) = 0 := rfl
    rw [h1, mul_zero, qmk_eq]
    simp
  · rw [qdiv, qmk_eq]
    conv_rhs => rw [qexpand a, qexpand b]
    have hbn : ((b.num : ℤ) : ℚ) ≠ 0 :=
      Int.cast_ne_zero.mpr (fun h => hb (Rat.zero_iff_num_zero.mpr h))
    push_cast
    rw [div_div_div_comm]
    field_simp
    left
    ring

theorem qinv_eq (a : ℚ) : qinv a = a⁻¹ := by
  by_cases ha : a = 0
  · subst ha
    rw [qinv]
    have h1 : ((0 : ℚ).num : ℤ) = 0 := rfl
    have h2 : ((0 : ℚ).den : ℕ) = 1 := rfl
    rw [h1, h2, qmk_eq]
    simp
  · rw [qinv, qmk_eq, inv_eq_one_div]
    conv_rhs => rw [qexpand a]
    rw [one_div_div]

/-! ## Character classes of the C++ regexes -/

/-- The characters of the regex class `\d`, i.e. `[0-9]`. -/
def digitChars : List Char := ['0', '1', '2', '3', '4', '5', '6', '7', '8', '9']

/-- The characters of the regex class `\s` (C locale). -/
def wsChars : List Char := [' ', '\t', '\n', '\x0b', '\x0c', '\r']

/-- The characters of the regex class `[(){}]` (`PARENTHESIS_PATTERN`). -/
def bracketChars : List Char := ['(', ')', '{', '}']

/-- The characters of the regex class `[+\-*/^]` (`OPERATOR_PATTERN`). -/
def opChars : List Char := ['+', '-', '*', '/', '^']

def isDigitChar (c : Char) : Bool := digitChars.contains c

def isWSChar (c : Char) : Bool := wsChars.contains c

def isBracketChar (c : Char) : Bool := bracketChars.contains c

/-- `Calculator::isOperator`. -/
def isOperator (c : Char) : Bool :=
  c = '+' || c = '-' || c = '*' || c = '/' || c = '^'

/-- The search set of `currentExpr.find_last_of("({")`. -/
def isOpenBracket (c : Char) : Bool := c = '(' || c = '{'

/-- The search set of `currentExpr.find_first_of(")}", openPos)`. -/
def isCloseBracket (c : Char) : Bool := c = ')' || c = '}'

/-- `Calculator::getPrecedence`. -/
def getPrecedence (op : Char) : Nat :=
  if op = '^' then 3
  else if op = '*' || op = '/' then 2
  else if op = '+' || op = '-' then 1
  else 0

/-- `Calculator::isMatchingPair`. -/
def isMatchingPair (opening closing : Char) : Bool :=
  (opening = '(' && closing = ')') || (opening = '{' && closing = '}')

/-! ## The C++ regex patterns as regular expressions

A POSIX character class is an alternation of its characters. -/

open RegularExpression in
/-- A character class `[c₁c₂…]` as a regular expression. -/
def charClass (cs : List Char) : RegularExpression Char :=
  cs.foldr (fun c r => RegularExpression.char c + r) 0

/-- `r+` as `r r*`. -/
def rplus (r : RegularExpression Char) : RegularExpression Char :=
  r * RegularExpression.star r

/-- `NUMBER_PATTERN`, the C++ regex `\d+(\.\d+)?`. -/
def NUMBER_PATTERN : RegularExpression Char :=
  rplus (charClass digitChars) *
    (1 + RegularExpression.char '.' * rplus (charClass digitChars))

/-- One token of the validation regex: `[(){}]|\d+(\.\d+)?|[+\-*/^]`. -/
def tokenRE : RegularExpression Char :=
  charClass bracketChars + (NUMBER_PATTERN + charClass opChars)

/-- `VALID_EXPRESSION`, the C++ regex
`^[\s]*([(){}]|\d+(\.\d+)?|[+\-*/^])+[\s]*$` (anchors are implicit in
`regex_match`, which matches the whole string). -/
def VALID_EXPRESSION : RegularExpression Char :=
  RegularExpression.star (charClass wsChars) *
    (rplus tokenRE * RegularExpression.star (charClass wsChars))

/-! ## Number parsing (`std::stod`) and formatting (`formatNumber`) -/

def digitVal (c : Char) : Nat := c.toNat - 48

/-- Consume a maximal run of decimal digits, returning the accumulated value,
the number of digits consumed, and the rest. -/
def parseDigitsAux : List Char → Nat → Nat → Nat × Nat × List Char
  | [], acc, n => (acc, n, [])
  | c :: rest, acc, n =>
    if isDigitChar c then parseDigitsAux rest (10 * acc + digitVal c) (n + 1)
    else (acc, n, c :: rest)

def parseDigits (s : List Char) : Nat × Nat × List Char := parseDigitsAux s 0 0

/-- Model of `std::stod`: skip leading whitespace, optional sign, integer
digits, optional `.` and fraction digits; at least one digit is required,
and the longest valid numeric head is converted, ignoring the rest of the
string.  (Hexadecimal, infinity/NaN and exponent forms of `strtod` are never
produced by this program and are omitted.)  Returns `none` where `std::stod`
throws `std::invalid_argument`. -/
def stodModel (s : List Char) : Option ℚ :=
  let s1 := s.dropWhile isWSChar
  let neg : Bool := s1.head? = some '-'
  let s2 : List Char := if s1.head? = some '-' ∨ s1.head? = some '+' then s1.tail else s1
  let ip := parseDigits s2
  let fp : Nat × Nat × List Char :=
    if ip.2.2.head? = some '.' then parseDigits ip.2.2.tail else (0, 0, ip.2.2)
  if ip.2.1 = 0 && fp.2.1 = 0 then none
  else
    let mag : ℚ := qadd (ip.1 : ℚ) (qdiv (fp.1 : ℚ) (((10 ^ fp.2.1 : ℕ)) : ℚ))
    some (if neg then -mag else mag)

def digChar (d : Nat) : Char := digitChars.getD d '0'

/-- Decimal rendering of a natural number, most significant digit first
(the first argument is fuel; `natToStr` supplies enough). -/
def natToStrAux : Nat → Nat → List Char
  | 0, _ => []
  | fuel + 1, n => if n = 0 then [] else natToStrAux fuel (n / 10) ++ [digChar (n % 10)]

def natToStr (n : Nat) : List Char :=
  if n = 0 then ['0'] else natToStrAux n n

/-- Round to the nearest integer, `⌊x + 1/2⌋`, written with Euclidean
division (the `/` of `ℤ`) so that it evaluates: for a positive divisor it
is floor division, and `x + 1/2 = (2 num + den) / (2 den)`. -/
def rnd (x : ℚ) : ℤ := (2 * x.num + (x.den : ℤ)) / (2 * (x.den : ℤ))

/-- The text produced by `ss << std::fixed << std::setprecision(2) << num`:
optional minus sign, integer digits, `'.'`, exactly two fraction digits.
Rounding to hundredths is modelled by `rnd` (round half up); the C++ rounds
the binary double (ties resolved by its binary value, and a tiny negative
value prints as `-0.00`) — no claim reaches either corner. -/
def formatFixed2 (num : ℚ) : List Char :=
  let n : ℤ := rnd (qmul num 100)
  let a : Nat := n.natAbs
  (if n < 0 then ['-'] else []) ++
    natToStr (a / 100) ++ '.' :: [digChar (a % 100 / 10), digChar (a % 100 % 10)]

/-- `Calculator::formatNumber`: print with two decimals, then strip trailing
zeros (`find_last_not_of('0')`) and a then-trailing decimal point. -/
def formatNumber (num : ℚ) : String :=
  let str := formatFixed2 num
  if str.contains '.' then
    let s1 := (str.reverse.dropWhile (fun c => c = '0')).reverse
    match s1.getLast? with
    | some '.' => String.mk s1.dropLast
    | _ => String.mk s1
  else String.mk str

/-! ## The step trace -/

/-- `Calculator::addStep`: append, unless equal to the current last entry. -/
def addStep (step : String) (steps : List String) : List String :=
  if steps.getLast? = some step then steps else steps ++ [step]

/-- The step record `"<a> <op> <b> = <result>"` of a binary reduction. -/
def stepRecord (a : ℚ) (op : Char) (b r : ℚ) : String :=
  formatNumber a ++ " " ++ String.singleton op ++ " " ++ formatNumber b ++
    " = " ++ formatNumber r

/-! ## Arithmetic (`applyOperation`) -/

def qnpow (a : ℚ) : Nat → ℚ
  | 0 => 1
  | n + 1 => qmul a (qnpow a n)

/-- Model of `std::pow` on rationals.  This model is exact and UNBOUNDED
where the C++ double is not: for a large integer exponent (e.g. `9^999`)
`std::pow` saturates to `+inf` and `formatNumber` then prints `"inf"`,
while `qpow` returns the exact rational; for a fractional exponent the
C++ computes a real power with no rational counterpart (junk value `0`
here), and `0⁻¹ = 0` on `ℚ` where the C++ produces `inf`.  No claim
theorem depends on a power value outside the exactly-representable range:
the only powers evaluated concretely are the small ones of `"2^3^2"`, and
the substitution-invariant theorem quantifies over the rendered literal
itself rather than over a computed power. -/
def qpow (a b : ℚ) : ℚ :=
  if b.den = 1 then
    if 0 ≤ b.num then qnpow a b.num.toNat else qinv (qnpow a (-b.num).toNat)
  else 0

/-- `Calculator::applyOperation`. -/
def applyOperation (a b : ℚ) (op : Char) : Except CalcError ℚ :=
  if op = '+' then .ok (qadd a b)
  else if op = '-' then .ok (qsub a b)
  else if op = '*' then .ok (qmul a b)
  else if op = '/' then
    if b = 0 then .error .divisionByZero else .ok (qdiv a b)
  else if op = '^' then .ok (qpow a b)
  else .error .invalidOperator

/-! ## The two-stack reducer (`evaluateSubExpression`)

The operand stack `values` and the operator stack `ops` are lists with the
top at the head.  Popping an empty stack is C++ undefined behaviour,
modelled by `stackUnderflow`. -/

/-- The inner `while` of the operator branch: while the operator stack is
non-empty and its top has precedence `≥` the incoming operator's, pop one
operator and two operands, apply, push the result, record a step. -/
def popWhile (c : Char) :
    List ℚ → List Char → List String → Except CalcError (List ℚ × List Char) × List String
  | values, [], steps => (.ok (values, []), steps)
  | values, op :: restOps, steps =>
    if getPrecedence op ≥ getPrecedence c then
      match values with
      | b :: a :: restVals =>
        match applyOperation a b op with
        | .ok r => popWhile c (r :: restVals) restOps (addStep (stepRecord a op b r) steps)
        | .error e => (.error e, steps)
      | _ => (.error .stackUnderflow, steps)
    else (.ok (values, op :: restOps), steps)

/-- The final `while (!ops.empty())` drain at end of input. -/
def drainOps :
    List ℚ → List Char → List String → Except CalcError (List ℚ) × List String
  | values, [], steps => (.ok values, steps)
  | values, op :: restOps, steps =>
    match values with
    | b :: a :: restVals =>
      match applyOperation a b op with
      | .ok r => drainOps (r :: restVals) restOps (addStep (stepRecord a op b r) steps)
      | .error e => (.error e, steps)
    | _ => (.error .stackUnderflow, steps)

/-- Flush `currentNum` onto the operand stack (the C++
`values.push(std::stod(currentNum))` guarded by `!currentNum.empty()`). -/
def flushNum (currentNum : List Char) (values : List ℚ) : Except CalcError (List ℚ) :=
  if currentNum.isEmpty then .ok values
  else
    match stodModel currentNum with
    | some v => .ok (v :: values)
    | none => .error .stodFailure

/-- The character scan of `evaluateSubExpression`: digits and `'.'`
accumulate into `currentNum`; any other character flushes `currentNum`,
and an operator additionally runs `popWhile` and is pushed. -/
def subLoop :
    List Char → List ℚ → List Char → List Char → List String →
      Except CalcError (List ℚ × List Char × List Char) × List String
  | [], values, ops, currentNum, steps => (.ok (values, ops, currentNum), steps)
  | ch :: rest, values, ops, currentNum, steps =>
    if isDigitChar ch || ch = '.' then
      subLoop rest values ops (currentNum ++ [ch]) steps
    else
      match flushNum currentNum values with
      | .error e => (.error e, steps)
      | .ok values1 =>
        if isOperator ch then
          match popWhile ch values1 ops steps with
          | (.ok (values2, ops2), steps2) => subLoop rest values2 (ch :: ops2) [] steps2
          | (.error e, steps2) => (.error e, steps2)
        else subLoop rest values1 ops [] steps

/-- `Calculator::evaluateSubExpression(expr, start, end)`.  The C++ takes
`expr.substr(start, end - start + 1)` with `size_t` arithmetic; in every
call the program makes, `end + 1 ≥ start` holds and the `size_t` value
`end - start + 1` equals the `Nat` value `end + 1 - start` (including the
empty-interior case `end + 1 = start`, where the `size_t` expression wraps
to `0`). -/
def evaluateSubExpression (expr : List Char) (start stop : Nat) (steps : List String) :
    Except CalcError String × List String :=
  let subExpr := (expr.drop start).take (stop + 1 - start)
  match subLoop subExpr [] [] [] steps with
  | (.error e, steps1) => (.error e, steps1)
  | (.ok (values, ops, currentNum), steps1) =>
    match flushNum currentNum values with
    | .error e => (.error e, steps1)
    | .ok values1 =>
      match drainOps values1 ops steps1 with
      | (.error e, steps2) => (.error e, steps2)
      | (.ok values2, steps2) =>
        match values2 with
        | top :: _ => (.ok (formatNumber top), steps2)
        | [] => (.error .stackUnderflow, steps2)

/-! ## Validation (`validateExpression`) -/

/-- The bracket scan of `validateExpression` (its `for` loop), returning the
final opener stack. -/
def bracketRun : List Char → List Char → Except CalcError (List Char)
  | [], stack => .ok stack
  | c :: rest, stack =>
    if c = '(' || c = '{' then bracketRun rest (c :: stack)
    else if c = ')' || c = '}' then
      match stack with
      | [] => .error .mismatchedBrackets
      | top :: stackRest =>
        if isMatchingPair top c then bracketRun rest stackRest
        else .error .mismatchedBrackets
    else bracketRun rest stack

/-- `Calculator::validateExpression`: whole-string regex match, then the
bracket scan, then the final emptiness check. -/
def validateExpression (expression : List Char) : Except CalcError Unit :=
  if VALID_EXPRESSION.rmatch expression then
    match bracketRun expression [] with
    | .ok [] => .ok ()
    | .ok (_ :: _) => .error .unclosedBrackets
    | .error e => .error e
  else .error .invalidFormat

/-! ## The bracket-resolution driver (`evaluate`) -/

/-- `std::string::find_last_of` over a character set: the index of the last
character satisfying `p`. -/
def findLastOf (p : Char → Bool) : List Char → Option Nat
  | [] => none
  | c :: rest =>
    match findLastOf p rest with
    | some i => some (i + 1)
    | none => if p c then some 0 else none

/-- `std::string::find_first_of` over a character set. -/
def findFirstOf (p : Char → Bool) : List Char → Option Nat
  | [] => none
  | c :: rest => if p c then some 0 else (findFirstOf p rest).map (· + 1)

/-- `std::string::find_first_of` with a start position (inclusive). -/
def findFirstOfFrom (p : Char → Bool) (s : List Char) (start : Nat) : Option Nat :=
  (findFirstOf p (s.drop start)).map (· + start)

/-- `Calculator::replaceInExpression` (`std::string::replace`). -/
def replaceInExpression (expr : List Char) (start length : Nat) (replacement : List Char) :
    List Char :=
  expr.take start ++ replacement ++ expr.drop (start + length)

/-- `std::regex_search(s, OPERATOR_PATTERN)`: `OPERATOR_PATTERN` is the
single character class `[+\-*/^]`, so searching is containment. -/
def containsOperatorChar (s : List Char) : Bool := s.any isOperator

/-- The `while (true)` loop of `Calculator::evaluate`, with fuel. -/
def evalLoop : Nat → List Char → List String → Except CalcError Unit × List String
  | 0, _, steps => (.error .outOfFuel, steps)
  | fuel + 1, currentExpr, steps =>
    match findLastOf isOpenBracket currentExpr with
    | none =>
      if containsOperatorChar currentExpr then
        match evaluateSubExpression currentExpr 0 (currentExpr.length - 1) steps with
        | (.ok result, steps1) => (.ok (), addStep result steps1)
        | (.error e, steps1) => (.error e, steps1)
      else (.ok (), steps)
    | some openPos =>
      match findFirstOfFrom isCloseBracket currentExpr openPos with
      | none => (.error .mismatchedBrackets, steps)
      | some closePos =>
        match evaluateSubExpression currentExpr (openPos + 1) (closePos - 1) steps with
        | (.error e, steps1) => (.error e, steps1)
        | (.ok subExprResult, steps1) =>
          let next := replaceInExpression currentExpr openPos (closePos - openPos + 1)
            subExprResult.data
          evalLoop fuel next (addStep (String.mk next) steps1)

/-- `Calculator::evaluate`: clear the trace, record the raw input, validate,
run the resolution loop, and parse the last recorded step with `std::stod`.
The returned pair is (result or error, final contents of `steps`). -/
def evaluate (expression : String) : Except CalcError ℚ × List String :=
  let steps : List String := addStep expression []
  match validateExpression expression.data with
  | .error e => (.error e, steps)
  | .ok _ =>
    match evalLoop (expression.data.countP isOpenBracket + 1) expression.data steps with
    | (.error e, steps1) => (.error e, steps1)
    | (.ok _, steps1) =>
      match steps1.getLast? with
      | none => (.error .stodFailure, steps1)
      | some last =>
        match stodModel last.data with
        | some r => (.ok r, steps1)
        | none => (.error .stodFailure, steps1)

/-! ## Characterization of the validation regex

`matches'`-level descriptions of the languages of `NUMBER_PATTERN`,
`tokenRE` and `VALID_EXPRESSION`, used to reason about validated inputs. -/

def AllDigits (l : List Char) : Prop := ∀ c ∈ l, isDigitChar c = true

/-- The shape of a `NUMBER_PATTERN` match: digits, or digits `.` digits. -/
def NumShape (x : List Char) : Prop :=
  (x ≠ [] ∧ AllDigits x) ∨
    ∃ ds es, ds ≠ [] ∧ es ≠ [] ∧ AllDigits ds ∧ AllDigits es ∧ x = ds ++ '.' :: es

/-- The shape of a `tokenRE` match. -/
def IsTok (x : List Char) : Prop :=
  (∃ c, isBracketChar c = true ∧ x = [c]) ∨ NumShape x ∨
    (∃ c, isOperator c = true ∧ x = [c])

/-- Concatenations of `tokenRE` matches. -/
inductive TokSeq : List Char → Prop
  | nil : TokSeq []
  | cons {t s : List Char} : IsTok t → TokSeq s → TokSeq (t ++ s)

/-- The value of a digit string, most significant digit first. -/
def valDigits (ds : List Char) : Nat := ds.foldl (fun a c => 10 * a + digitVal c) 0

/-- The fractional part of `formatNumber`'s output, after stripping, as a
function of the two-digit remainder. -/
def fracRepr (r : Nat) : List Char :=
  if r = 0 then []
  else if r % 10 = 0 then ['.', digChar (r / 10)]
  else ['.', digChar (r / 10), digChar (r % 10)]

/-- A maximal digits-and-dots chunk, as scanned by `subLoop`. -/
def NumChunk (n : List Char) : Prop :=
  n ≠ [] ∧ ∀ c ∈ n, (isDigitChar c || c = '.') = true

/-- A well-formed flat span: number chunks alternating with single
operator characters, starting and ending with a chunk. -/
inductive FlatWF : List Char → Prop
  | single {n : List Char} : NumChunk n → FlatWF n
  | cons {n : List Char} (op : Char) {rest : List Char} :
      NumChunk n → isOperator op = true → FlatWF rest → FlatWF (n ++ op :: rest)

theorem isDigitChar_iff {c : Char} : isDigitChar c = true ↔ c ∈ digitChars := by
  simp [isDigitChar]

theorem isWSChar_iff {c : Char} : isWSChar c = true ↔ c ∈ wsChars := by
  simp [isWSChar]

theorem isBracketChar_iff {c : Char} : isBracketChar c = true ↔ c ∈ bracketChars := by
  simp [isBracketChar]

theorem isOperator_iff {c : Char} : isOperator c = true ↔ c ∈ opChars := by
  simp [isOperator, opChars]
  tauto

theorem mem_charClass {cs x : List Char} :
    x ∈ (charClass cs).matches' ↔ ∃ c ∈ cs, x = [c] := by
  induction cs with
  | nil =>
    simp only [charClass, List.foldr_nil]
    constructor
    · exact fun h => absurd h (Language.not_mem_zero x)
    · rintro ⟨c, hc, -⟩
      exact absurd hc (List.not_mem_nil c)
  | cons c cs ih =>
    simp only [charClass, List.foldr_cons] at *
    rw [RegularExpression.matches'_add, Language.mem_add, ih,
      RegularExpression.matches'_char]
    constructor
    · rintro (h | ⟨c', hc', rfl⟩)
      · exact ⟨c, List.mem_cons_self c cs, Set.eq_of_mem_singleton h⟩
      · exact ⟨c', List.mem_cons_of_mem c hc', rfl⟩
    · rintro ⟨c', hc', rfl⟩
      rcases List.mem_cons.mp hc' with rfl | h
      · exact Or.inl rfl
      · exact Or.inr ⟨c', h, rfl⟩

theorem mem_star_charClass {cs x : List Char} :
    x ∈ (RegularExpression.star (charClass cs)).matches' ↔ ∀ c ∈ x, c ∈ cs := by
  rw [RegularExpression.matches'_star, Language.mem_kstar]
  constructor
  · rintro ⟨L, rfl, hL⟩
    intro c hc
    rcases List.mem_flatten.mp hc with ⟨y, hy, hcy⟩
    rcases mem_charClass.mp (hL y hy) with ⟨c', hc', rfl⟩
    rcases List.mem_singleton.mp hcy with rfl
    exact hc'
  · intro h
    refine ⟨x.map (fun c => [c]), ?_, ?_⟩
    · induction x with
      | nil => rfl
      | cons c rest ih => simpa using ih (fun c hc => h c (List.mem_cons_of_mem _ hc))
    · intro y hy
      rcases List.mem_map.mp hy with ⟨c, hc, rfl⟩
      exact mem_charClass.mpr ⟨c, h c hc, rfl⟩

theorem mem_rplus {r : RegularExpression Char} {x : List Char} :
    x ∈ (rplus r).matches' ↔
      ∃ a b, a ∈ r.matches' ∧ b ∈ (RegularExpression.star r).matches' ∧ a ++ b = x := by
  rw [rplus, RegularExpression.matches'_mul, Language.mem_mul]
  constructor
  · rintro ⟨a, ha, b, hb, rfl⟩
    exact ⟨a, b, ha, hb, rfl⟩
  · rintro ⟨a, b, ha, hb, rfl⟩
    exact ⟨a, ha, b, hb, rfl⟩

theorem mem_digits1 {x : List Char} :
    x ∈ (rplus (charClass digitChars)).matches' ↔ x ≠ [] ∧ AllDigits x := by
  rw [mem_rplus]
  constructor
  · rintro ⟨a, b, ha, hb, rfl⟩
    rcases mem_charClass.mp ha with ⟨c, hc, rfl⟩
    have hball := mem_star_charClass.mp hb
    refine ⟨by simp, ?_⟩
    intro ch hch
    rcases List.mem_cons.mp hch with rfl | h
    · exact isDigitChar_iff.mpr hc
    · exact isDigitChar_iff.mpr (hball ch h)
  · rintro ⟨hne, hall⟩
    rcases x with _ | ⟨c, rest⟩
    · exact absurd rfl hne
    · refine ⟨[c], rest, ?_, ?_, rfl⟩
      · exact mem_charClass.mpr ⟨c, isDigitChar_iff.mp (hall c (List.mem_cons_self c rest)), rfl⟩
      · exact mem_star_charClass.mpr
          (fun ch hch => isDigitChar_iff.mp (hall ch (List.mem_cons_of_mem c hch)))

theorem mem_NUMBER {x : List Char} :
    x ∈ NUMBER_PATTERN.matches' ↔ NumShape x := by
  rw [NUMBER_PATTERN, RegularExpression.matches'_mul, Language.mem_mul]
  constructor
  · rintro ⟨a, ha, b, hb, rfl⟩
    rcases mem_digits1.mp ha with ⟨hane, haall⟩
    rw [RegularExpression.matches'_add, Language.mem_add] at hb
    rcases hb with hb1 | hb2
    · rw [RegularExpression.matches'_epsilon, Language.mem_one] at hb1
      subst hb1
      exact Or.inl ⟨by simpa using hane, by simpa [AllDigits] using haall⟩
    · rw [RegularExpression.matches'_mul, Language.mem_mul] at hb2
      rcases hb2 with ⟨u, hu, v, hv, rfl⟩
      rw [RegularExpression.matches'_char, Set.mem_singleton_iff] at hu
      subst hu
      rcases mem_digits1.mp hv with ⟨hvne, hvall⟩
      exact Or.inr ⟨a, v, hane, hvne, haall, hvall, rfl⟩
  · rintro (⟨hne, hall⟩ | ⟨ds, es, hdne, hene, hdall, heall, rfl⟩)
    · refine ⟨x, mem_digits1.mpr ⟨hne, hall⟩, [], ?_, by simp⟩
      rw [RegularExpression.matches'_add, Language.mem_add]
      exact Or.inl (by rw [RegularExpression.matches'_epsilon, Language.mem_one])
    · refine ⟨ds, mem_digits1.mpr ⟨hdne, hdall⟩, '.' :: es, ?_, rfl⟩
      rw [RegularExpression.matches'_add, Language.mem_add]
      refine Or.inr ?_
      rw [RegularExpression.matches'_mul, Language.mem_mul]
      exact ⟨['.'], rfl, es, mem_digits1.mpr ⟨hene, heall⟩, rfl⟩

theorem mem_tokenRE {x : List Char} : x ∈ tokenRE.matches' ↔ IsTok x := by
  rw [tokenRE, RegularExpression.matches'_add, Language.mem_add,
    RegularExpression.matches'_add, Language.mem_add, mem_NUMBER, mem_charClass,
    mem_charClass]
  rw [IsTok]
  constructor
  · rintro (⟨c, hc, rfl⟩ | h | ⟨c, hc, rfl⟩)
    · exact Or.inl ⟨c, isBracketChar_iff.mpr hc, rfl⟩
    · exact Or.inr (Or.inl h)
    · exact Or.inr (Or.inr ⟨c, isOperator_iff.mpr hc, rfl⟩)
  · rintro (⟨c, hc, rfl⟩ | h | ⟨c, hc, rfl⟩)
    · exact Or.inl ⟨c, isBracketChar_iff.mp hc, rfl⟩
    · exact Or.inr (Or.inl h)
    · exact Or.inr (Or.inr ⟨c, isOperator_iff.mp hc, rfl⟩)

theorem mem_star_tokenRE {x : List Char} :
    x ∈ (RegularExpression.star tokenRE).matches' ↔ TokSeq x := by
  rw [RegularExpression.matches'_star, Language.mem_kstar]
  constructor
  · rintro ⟨L, rfl, hL⟩
    induction L with
    | nil => exact TokSeq.nil
    | cons t rest ih =>
      exact TokSeq.cons (mem_tokenRE.mp (hL t (List.mem_cons_self t rest)))
        (ih (fun y hy => hL y (List.mem_cons_of_mem t hy)))
  · intro h
    induction h with
    | nil => exact ⟨[], rfl, by simp⟩
    | cons ht _ ih =>
      rcases ih with ⟨L, rfl, hL⟩
      refine ⟨_ :: L, rfl, ?_⟩
      intro y hy
      rcases List.mem_cons.mp hy with rfl | h'
      · exact mem_tokenRE.mpr ht
      · exact hL y h'

/-- The language of the C++ validation regex: optional leading whitespace,
then a non-empty token area with no interior whitespace, then optional
trailing whitespace. -/
theorem valid_expression_iff {s : List Char} :
    VALID_EXPRESSION.rmatch s = true ↔
      ∃ w1 t w2, s = w1 ++ (t ++ w2) ∧ (∀ c ∈ w1, isWSChar c = true) ∧
        (∀ c ∈ w2, isWSChar c = true) ∧ TokSeq t ∧ t ≠ [] := by
  rw [show (VALID_EXPRESSION.rmatch s = true) ↔ VALID_EXPRESSION.rmatch s from
    Iff.rfl]
  rw [RegularExpression.rmatch_iff_matches']
  rw [VALID_EXPRESSION, RegularExpression.matches'_mul, Language.mem_mul]
  constructor
  · rintro ⟨w1, hw1, rest, hrest, rfl⟩
    rw [RegularExpression.matches'_mul, Language.mem_mul] at hrest
    rcases hrest with ⟨t, ht, w2, hw2, rfl⟩
    rcases mem_rplus.mp ht with ⟨a, b, ha, hb, rfl⟩
    refine ⟨w1, a ++ b, w2, rfl, ?_, ?_, ?_, ?_⟩
    · intro c hc
      exact isWSChar_iff.mpr (mem_star_charClass.mp hw1 c hc)
    · intro c hc
      exact isWSChar_iff.mpr (mem_star_charClass.mp hw2 c hc)
    · exact TokSeq.cons (mem_tokenRE.mp ha) (mem_star_tokenRE.mp hb)
    · have : a ≠ [] := by
        rcases mem_tokenRE.mp ha with ⟨c, -, rfl⟩ | hn | ⟨c, -, rfl⟩
        · simp
        · rcases hn with ⟨hne, -⟩ | ⟨ds, es, hdne, -, -, -, rfl⟩
          · exact hne
          · simp [hdne]
        · simp
      simp [this]
  · rintro ⟨w1, t, w2, rfl, hw1, hw2, ht, htne⟩
    refine ⟨w1, mem_star_charClass.mpr (fun c hc => isWSChar_iff.mp (hw1 c hc)),
      t ++ w2, ?_, rfl⟩
    rw [RegularExpression.matches'_mul, Language.mem_mul]
    rcases ht with - | @⟨tok, rest, htok, hrest⟩
    · exact absurd rfl htne
    · refine ⟨tok ++ rest, mem_rplus.mpr ⟨tok, rest, mem_tokenRE.mpr htok,
        mem_star_tokenRE.mpr hrest, rfl⟩, w2,
        mem_star_charClass.mpr (fun c hc => isWSChar_iff.mp (hw2 c hc)), by simp⟩

/-! ## Character-class facts -/

theorem isOpenBracket_elim {c : Char} (h : isOpenBracket c = true) :
    c = '(' ∨ c = '{' := by
  simpa [isOpenBracket] using h

theorem isCloseBracket_elim {c : Char} (h : isCloseBracket c = true) :
    c = ')' ∨ c = '}' := by
  simpa [isCloseBracket] using h

theorem isBracketChar_elim {c : Char} (h : isBracketChar c = true) :
    c = '(' ∨ c = ')' ∨ c = '{' ∨ c = '}' := by
  simpa [isBracketChar, bracketChars] using h

theorem isDigitChar_elim {c : Char} (h : isDigitChar c = true) : c ∈ digitChars :=
  isDigitChar_iff.mp h

theorem bracket_eq_open_or_close (c : Char) :
    isBracketChar c = (isOpenBracket c || isCloseBracket c) := by
  by_cases h1 : c = '('
  · subst h1; decide
  by_cases h2 : c = ')'
  · subst h2; decide
  by_cases h3 : c = '{'
  · subst h3; decide
  by_cases h4 : c = '}'
  · subst h4; decide
  simp [isBracketChar, bracketChars, isOpenBracket, isCloseBracket, h1, h2, h3, h4]

theorem open_isBracket {c : Char} (h : isOpenBracket c = true) :
    isBracketChar c = true := by
  rcases isOpenBracket_elim h with rfl | rfl <;> decide

theorem close_isBracket {c : Char} (h : isCloseBracket c = true) :
    isBracketChar c = true := by
  rcases isCloseBracket_elim h with rfl | rfl <;> decide

theorem open_not_ws {c : Char} (h : isOpenBracket c = true) : isWSChar c = false := by
  rcases isOpenBracket_elim h with rfl | rfl <;> decide

theorem close_not_ws {c : Char} (h : isCloseBracket c = true) : isWSChar c = false := by
  rcases isCloseBracket_elim h with rfl | rfl <;> decide

theorem open_not_close {c : Char} (h : isOpenBracket c = true) :
    isCloseBracket c = false := by
  rcases isOpenBracket_elim h with rfl | rfl <;> decide

theorem digit_not_bracket {c : Char} (h : isDigitChar c = true) :
    isBracketChar c = false := by
  have := isDigitChar_elim h
  fin_cases this <;> decide

theorem digit_not_ws {c : Char} (h : isDigitChar c = true) : isWSChar c = false := by
  have := isDigitChar_elim h
  fin_cases this <;> decide

theorem operator_not_bracket {c : Char} (h : isOperator c = true) :
    isBracketChar c = false := by
  have := isOperator_iff.mp h
  fin_cases this <;> decide

theorem bracket_not_operator {c : Char} (h : isBracketChar c = true) :
    isOperator c = false := by
  rcases isBracketChar_elim h with rfl | rfl | rfl | rfl <;> decide

theorem bracket_not_digit {c : Char} (h : isBracketChar c = true) :
    isDigitChar c = false := by
  rcases isBracketChar_elim h with rfl | rfl | rfl | rfl <;> decide

theorem bracket_not_dot {c : Char} (h : isBracketChar c = true) : c ≠ '.' := by
  rcases isBracketChar_elim h with rfl | rfl | rfl | rfl <;> decide

/-! ## Token-sequence surgery -/

theorem NumShape.chars {t : List Char} (h : NumShape t) :
    ∀ c ∈ t, isDigitChar c = true ∨ c = '.' := by
  rcases h with ⟨-, hall⟩ | ⟨ds, es, -, -, hdall, heall, rfl⟩
  · exact fun c hc => Or.inl (hall c hc)
  · intro c hc
    rcases List.mem_append.mp hc with h1 | h2
    · exact Or.inl (hdall c h1)
    · rcases List.mem_cons.mp h2 with rfl | h3
      · exact Or.inr rfl
      · exact Or.inl (heall c h3)

theorem IsTok.ne_nil {t : List Char} (h : IsTok t) : t ≠ [] := by
  rcases h with ⟨c, -, rfl⟩ | hn | ⟨c, -, rfl⟩
  · simp
  · rcases hn with ⟨hne, -⟩ | ⟨ds, es, hdne, -, -, -, rfl⟩
    · exact hne
    · simp [hdne]
  · simp

theorem TokSeq.single {t : List Char} (h : IsTok t) : TokSeq t := by
  have := TokSeq.cons h TokSeq.nil
  simpa using this

theorem TokSeq.append_ts {a b : List Char} (ha : TokSeq a) (hb : TokSeq b) :
    TokSeq (a ++ b) := by
  induction ha with
  | nil => simpa using hb
  | cons ht _ ih => rw [List.append_assoc]; exact TokSeq.cons ht ih

theorem singleton_split {a b : List Char} {c c0 : Char}
    (h : a ++ c :: b = [c0]) : a = [] ∧ c = c0 ∧ b = [] := by
  rcases a with _ | ⟨y, ys⟩
  · simp only [List.nil_append] at h
    injection h with h1 h2
    exact ⟨rfl, h1, h2⟩
  · rw [List.cons_append] at h
    injection h with h1 h2
    exact absurd h2 (by simp)

/-- Splitting a token sequence at a bracket character: brackets are always
single-character tokens, so both sides are token sequences again. -/
theorem TokSeq.split_at_bracket {s : List Char} (h : TokSeq s) :
    ∀ {a b : List Char} {c : Char}, s = a ++ c :: b → isBracketChar c = true →
      TokSeq a ∧ TokSeq b := by
  induction h with
  | nil =>
    intro a b c hs _
    exact absurd hs.symm (by simp)
  | cons htok hrest ih =>
    intro a b c hs hc
    rename_i t rest
    rcases List.append_eq_append_iff.mp hs with ⟨x, hx1, hx2⟩ | ⟨x, hx1, hx2⟩
    · -- a = t ++ x, rest = x ++ c :: b
      rcases ih hx2 hc with ⟨hxts, hbts⟩
      rw [hx1]
      exact ⟨TokSeq.cons htok hxts, hbts⟩
    · -- t = a ++ x, c :: b = x ++ rest
      rcases x with _ | ⟨y, ys⟩
      · -- x = []: t = a, rest = c :: b
        rw [List.append_nil] at hx1
        rw [List.nil_append] at hx2
        rcases ih (a := []) (by simpa using hx2.symm) hc with ⟨-, hbts⟩
        rw [← hx1]
        exact ⟨TokSeq.single htok, hbts⟩
      · -- x = y :: ys: the bracket would be inside the token t
        rw [List.cons_append] at hx2
        injection hx2 with hy hb
        subst hy
        subst hb
        rcases htok with ⟨c0, hc0, ht⟩ | hn | ⟨c0, hc0, ht⟩
        · rcases singleton_split (hx1 ▸ ht : a ++ c :: ys = [c0]) with ⟨rfl, -, rfl⟩
          exact ⟨TokSeq.nil, by simpa using hrest⟩
        · have hcmem : c ∈ t := by
            rw [hx1]
            exact List.mem_append.mpr (Or.inr (List.mem_cons_self c ys))
          rcases hn.chars c hcmem with hd | hdot
          · rw [bracket_not_digit hc] at hd
            exact absurd hd (by simp)
          · exact absurd hdot (bracket_not_dot hc)
        · rcases singleton_split (hx1 ▸ ht : a ++ c :: ys = [c0]) with ⟨-, rfl, -⟩
          rw [bracket_not_operator hc] at hc0
          exact absurd hc0 (by simp)

/-! ## Search-function specifications -/

theorem findLastOf_eq_none {p : Char → Bool} :
    ∀ {s : List Char}, findLastOf p s = none ↔ ∀ c ∈ s, p c = false := by
  intro s
  induction s with
  | nil => simp [findLastOf]
  | cons c rest ih =>
    rw [findLastOf]
    rcases hr : findLastOf p rest with - | i
    · rw [ih] at hr
      constructor
      · intro h
        intro x hx
        rcases List.mem_cons.mp hx with rfl | hm
        · by_contra hpx
          rw [if_pos (eq_true_of_ne_false hpx)] at h
          exact absurd h (by simp)
        · exact hr x hm
      · intro h
        rw [if_neg]
        intro hpc
        rw [h c (List.mem_cons_self c rest)] at hpc
        exact absurd hpc (by simp)
    · constructor
      · intro h
        exact absurd h (by simp)
      · intro h
        have : findLastOf p rest = none := by
          rw [ih]
          intro x hx
          exact h x (List.mem_cons_of_mem c hx)
        rw [this] at hr
        exact absurd hr (by simp)

theorem findLastOf_eq_some {p : Char → Bool} :
    ∀ {s : List Char} {i : Nat}, findLastOf p s = some i ↔
      ∃ a c b, s = a ++ c :: b ∧ a.length = i ∧ p c = true ∧ ∀ x ∈ b, p x = false := by
  intro s
  induction s with
  | nil =>
    intro i
    constructor
    · intro h
      exact absurd h (by simp [findLastOf])
    · rintro ⟨a, c, b, ha, -, -, -⟩
      exact absurd ha.symm (by simp)
  | cons ch rest ih =>
    intro i
    rw [findLastOf]
    rcases hr : findLastOf p rest with - | k
    · -- nothing in rest
      have hnone := findLastOf_eq_none.mp hr
      constructor
      · intro h
        cases hpc : p ch
        · rw [if_neg (by simp [hpc])] at h
          exact absurd h (by simp)
        · rw [if_pos hpc] at h
          injection h with h
          exact ⟨[], ch, rest, rfl, h, hpc, hnone⟩
      · rintro ⟨a, c, b, ha, hlen, hpc, hb⟩
        rcases a with _ | ⟨y, ys⟩
        · simp only [List.nil_append] at ha
          injection ha with h1 h2
          subst h1
          subst h2
          rw [if_pos hpc]
          simpa using hlen
        · rw [List.cons_append] at ha
          injection ha with h1 h2
          subst h1
          have : p c = false := hnone c (h2 ▸ List.mem_append.mpr
            (Or.inr (List.mem_cons_self c b)))
          rw [this] at hpc
          exact absurd hpc (by simp)
    · constructor
      · intro h
        injection h with h
        rcases ih.mp hr with ⟨a, c, b, ha, hlen, hpc, hb⟩
        exact ⟨ch :: a, c, b, by rw [ha, List.cons_append], by simp [hlen, ← h], hpc, hb⟩
      · rintro ⟨a, c, b, ha, hlen, hpc, hb⟩
        rcases a with _ | ⟨y, ys⟩
        · -- c is the head; but rest contains a hit at index k, contradiction
          simp only [List.nil_append] at ha
          injection ha with h1 h2
          subst h1
          rcases ih.mp hr with ⟨a', c', b', ha', -, hpc', hb'⟩
          have : p c' = false := hb c' (h2 ▸ ha' ▸ List.mem_append.mpr
            (Or.inr (List.mem_cons_self c' b')))
          rw [this] at hpc'
          exact absurd hpc' (by simp)
        · rw [List.cons_append] at ha
          injection ha with h1 h2
          subst h1
          have : findLastOf p rest = some ys.length := ih.mpr ⟨ys, c, b, h2, rfl, hpc, hb⟩
          rw [this] at hr
          injection hr with hr
          rw [← hlen, List.length_cons, hr]

theorem findFirstOf_eq_some {p : Char → Bool} :
    ∀ {s : List Char} {j : Nat}, findFirstOf p s = some j ↔
      ∃ a c b, s = a ++ c :: b ∧ a.length = j ∧ p c = true ∧ ∀ x ∈ a, p x = false := by
  intro s
  induction s with
  | nil =>
    intro j
    constructor
    · intro h
      exact absurd h (by simp [findFirstOf])
    · rintro ⟨a, c, b, ha, -, -, -⟩
      exact absurd ha.symm (by simp)
  | cons ch rest ih =>
    intro j
    rw [findFirstOf]
    cases hpc : p ch
    · rw [if_neg (by decide)]
      constructor
      · intro h
        rcases hr : findFirstOf p rest with - | k
        · rw [hr] at h
          exact absurd h (by simp)
        · rw [hr] at h
          simp only [Option.map_some'] at h
          injection h with h
          rcases ih.mp hr with ⟨a, c, b, ha, hlen, hpc', ha'⟩
          refine ⟨ch :: a, c, b, by rw [ha, List.cons_append], by simp [hlen, ← h], hpc', ?_⟩
          intro x hx
          rcases List.mem_cons.mp hx with rfl | hm
          · exact hpc
          · exact ha' x hm
      · rintro ⟨a, c, b, ha, hlen, hpc', ha'⟩
        rcases a with _ | ⟨y, ys⟩
        · simp only [List.nil_append] at ha
          injection ha with h1 h2
          subst h1
          rw [hpc'] at hpc
          exact absurd hpc (by simp)
        · rw [List.cons_append] at ha
          injection ha with h1 h2
          subst h1
          have : findFirstOf p rest = some ys.length :=
            ih.mpr ⟨ys, c, b, h2, rfl, hpc', fun x hx => ha' x (List.mem_cons_of_mem ch hx)⟩
          rw [this]
          simp only [Option.map_some']
          simp only [List.length_cons] at hlen
          rw [← hlen]
    · rw [if_pos rfl]
      constructor
      · intro h
        injection h with h
        exact ⟨[], ch, rest, rfl, h, hpc, by simp⟩
      · rintro ⟨a, c, b, ha, hlen, hpc', ha'⟩
        rcases a with _ | ⟨y, ys⟩
        · simpa using hlen
        · rw [List.cons_append] at ha
          injection ha with h1 h2
          subst h1
          have : p ch = false := ha' ch (List.mem_cons_self ch ys)
          rw [this] at hpc
          exact absurd hpc (by simp)

/-- Splitting a list at the first character satisfying `p`. -/
theorem exists_first_split {p : Char → Bool} {l : List Char} {c0 : Char}
    (hc0 : c0 ∈ l) (hp : p c0 = true) :
    ∃ m c b, l = m ++ c :: b ∧ p c = true ∧ ∀ x ∈ m, p x = false := by
  induction l with
  | nil => exact absurd hc0 (List.not_mem_nil c0)
  | cons ch rest ih =>
    cases hpc : p ch
    · rcases List.mem_cons.mp hc0 with rfl | hm
      · rw [hp] at hpc
        exact absurd hpc (by simp)
      · rcases ih hm with ⟨m, c, b, hl, hc, hm'⟩
        refine ⟨ch :: m, c, b, by rw [hl, List.cons_append], hc, ?_⟩
        intro x hx
        rcases List.mem_cons.mp hx with rfl | hmx
        · exact hpc
        · exact hm' x hmx
    · exact ⟨[], ch, rest, rfl, hpc, by simp⟩

/-! ## Bracket-scan composition -/

/-- Unfolding lemma for one step of the bracket scan. -/
theorem bracketRun_cons (c : Char) (rest stack : List Char) :
    bracketRun (c :: rest) stack =
      if c = '(' || c = '{' then bracketRun rest (c :: stack)
      else if c = ')' || c = '}' then
        match stack with
        | [] => .error .mismatchedBrackets
        | top :: stackRest =>
          if isMatchingPair top c then bracketRun rest stackRest
          else .error .mismatchedBrackets
      else bracketRun rest stack := rfl

theorem bracketRun_append (a b stack : List Char) :
    bracketRun (a ++ b) stack =
      match bracketRun a stack with
      | .ok st => bracketRun b st
      | .error e => .error e := by
  induction a generalizing stack with
  | nil => simp [bracketRun]
  | cons c rest ih =>
    rw [List.cons_append, bracketRun_cons, bracketRun_cons]
    by_cases h1 : (c = '(' || c = '{') = true
    · rw [if_pos h1, if_pos h1, ih]
    · rw [if_neg h1, if_neg h1]
      by_cases h2 : (c = ')' || c = '}') = true
      · rw [if_pos h2, if_pos h2]
        rcases stack with - | ⟨top, srest⟩
        · rfl
        · dsimp only
          by_cases h3 : isMatchingPair top c = true
          · rw [if_pos h3, if_pos h3, ih]
          · rw [if_neg h3, if_neg h3]
      · rw [if_neg h2, if_neg h2, ih]

theorem bracketRun_no_brackets {l : List Char}
    (h : ∀ c ∈ l, isBracketChar c = false) :
    ∀ stack, bracketRun l stack = .ok stack := by
  induction l with
  | nil => intro stack; rfl
  | cons c rest ih =>
    intro stack
    have hc := h c (List.mem_cons_self c rest)
    rw [bracket_eq_open_or_close] at hc
    rw [bracketRun_cons]
    rw [if_neg (by
      intro hcontra
      rw [show (c = '(' || c = '{') = isOpenBracket c from rfl] at hcontra
      rw [hcontra] at hc
      exact absurd hc (by simp))]
    rw [if_neg (by
      intro hcontra
      rw [show (c = ')' || c = '}') = isCloseBracket c from rfl] at hcontra
      rw [hcontra] at hc
      simp at hc)]
    exact ih (fun x hx => h x (List.mem_cons_of_mem c hx)) stack

/-- The geometry of a balanced text at its last opening bracket: a closer
follows, the first closer after it matches its kind, the span between them
is bracket-free, and dropping the matched pair does not change the scan. -/
theorem bracket_geometry {s p q : List Char} {o : Char}
    (hrun : bracketRun s [] = .ok [])
    (hs : s = p ++ o :: q) (ho : isOpenBracket o = true)
    (hq : ∀ c ∈ q, isOpenBracket c = false) :
    ∃ m cl b, q = m ++ cl :: b ∧ (∀ c ∈ m, isBracketChar c = false) ∧
      isCloseBracket cl = true ∧ isMatchingPair o cl = true ∧
      (∀ stack, bracketRun (o :: q) stack = bracketRun b stack) := by
  subst hs
  rw [bracketRun_append] at hrun
  rcases hp : bracketRun p [] with e | st
  · rw [hp] at hrun
    exact absurd hrun (by simp)
  rw [hp] at hrun
  -- the scan of `o :: q` from stack `st` ends with the empty stack
  have hoq : bracketRun (o :: q) st = .ok [] := hrun
  have hopen : (o = '(' || o = '{') = true := ho
  rw [bracketRun_cons, if_pos hopen] at hoq
  -- q must contain a closer
  have hclose : ∃ c0 ∈ q, isCloseBracket c0 = true := by
    by_contra hnone
    push_neg at hnone
    have hnob : ∀ c ∈ q, isBracketChar c = false := by
      intro c hc
      rw [bracket_eq_open_or_close, hq c hc, Bool.false_or]
      cases hb : isCloseBracket c
      · rfl
      · exact absurd hb (by simpa using hnone c hc)
    rw [bracketRun_no_brackets hnob] at hoq
    exact absurd hoq (by simp)
  rcases hclose with ⟨c0, hc0mem, hc0⟩
  rcases exists_first_split hc0mem hc0 with ⟨m, cl, b, hqeq, hcl, hm⟩
  have hmnob : ∀ c ∈ m, isBracketChar c = false := by
    intro c hc
    rw [bracket_eq_open_or_close, hq c (hqeq ▸ List.mem_append.mpr (Or.inl hc)),
      hm c hc]
    rfl
  subst hqeq
  rw [bracketRun_append, bracketRun_no_brackets hmnob] at hoq
  dsimp only at hoq
  rw [bracketRun_cons] at hoq
  have hclopen : (cl = '(' || cl = '{') = false := by
    rcases isCloseBracket_elim hcl with rfl | rfl <;> rfl
  rw [if_neg (by simp [hclopen]), if_pos (show (cl = ')' || cl = '}') = true from hcl)]
    at hoq
  dsimp only at hoq
  cases hmatch : isMatchingPair o cl
  · rw [hmatch] at hoq
    exact absurd hoq (by simp)
  · refine ⟨m, cl, b, rfl, hmnob, hcl, hmatch, ?_⟩
    intro stack
    rw [bracketRun_cons, if_pos hopen, bracketRun_append, bracketRun_no_brackets hmnob]
    dsimp only
    rw [bracketRun_cons, if_neg (by simp [hclopen]),
      if_pos (show (cl = ')' || cl = '}') = true from hcl)]
    dsimp only
    rw [hmatch]
    rfl

/-! ## Step-trace lemmas

Every function that records steps only ever appends through `addStep`, so
the trace only grows, its first entry never changes, and no two adjacent
entries are ever equal. -/

theorem addStep_ext (step : String) (steps : List String) :
    ∃ l, addStep step steps = steps ++ l := by
  rw [addStep]
  split
  · exact ⟨[], by simp⟩
  · exact ⟨[step], rfl⟩

theorem ext_rfl {a : List String} : ∃ l, a = a ++ l := ⟨[], by simp⟩

theorem ext_trans {a b c : List String}
    (h1 : ∃ l, b = a ++ l) (h2 : ∃ l, c = b ++ l) : ∃ l, c = a ++ l := by
  rcases h1 with ⟨l1, rfl⟩
  rcases h2 with ⟨l2, rfl⟩
  exact ⟨l1 ++ l2, by simp⟩

theorem ext_head {a b : List String} (h : ∃ l, b = a ++ l) (ha : a ≠ []) :
    b.head? = a.head? ∧ b ≠ [] := by
  rcases h with ⟨l, rfl⟩
  rcases a with - | ⟨x, xs⟩
  · exact absurd rfl ha
  · exact ⟨rfl, by simp⟩

theorem addStep_chain {steps : List String} (step : String)
    (h : List.Chain' Ne steps) : List.Chain' Ne (addStep step steps) := by
  rw [addStep]
  split
  · exact h
  · rename_i hne
    rw [List.chain'_append]
    refine ⟨h, List.chain'_singleton step, ?_⟩
    intro x hx y hy
    simp only [List.head?_cons, Option.mem_def, Option.some.injEq] at hy
    subst hy
    intro hxy
    subst hxy
    exact hne (Option.mem_def.mp hx)

theorem popWhile_props (c : Char) (values : List ℚ) (ops : List Char) (steps : List String) :
    (∃ l, (popWhile c values ops steps).2 = steps ++ l) ∧
      (List.Chain' Ne steps → List.Chain' Ne (popWhile c values ops steps).2) := by
  induction values, ops, steps using popWhile.induct c with
  | case1 values steps =>
    rw [popWhile]
    exact ⟨ext_rfl, fun h => h⟩
  | case2 op restOps steps hprec b a restVals r happ ih =>
    rw [popWhile, if_pos hprec, happ]
    exact ⟨ext_trans (addStep_ext _ _) ih.1, fun h => ih.2 (addStep_chain _ h)⟩
  | case3 op restOps steps hprec b a restVals e happ =>
    rw [popWhile, if_pos hprec, happ]
    exact ⟨ext_rfl, fun h => h⟩
  | case4 values op restOps steps hprec hshape =>
    rcases values with - | ⟨b, values'⟩
    · rw [popWhile, if_pos hprec]
      · exact ⟨ext_rfl, fun h => h⟩
      · intro x y z h
        simp at h
    rcases values' with - | ⟨a, restVals⟩
    · rw [popWhile, if_pos hprec]
      · exact ⟨ext_rfl, fun h => h⟩
      · intro x y z h
        simp at h
    · exact absurd rfl (fun h => hshape b a restVals h)
  | case5 values op restOps steps hprec =>
    rcases values with - | ⟨b, values'⟩
    · rw [popWhile, if_neg hprec]
      · exact ⟨ext_rfl, fun h => h⟩
      · intro x y z h
        simp at h
    rcases values' with - | ⟨a, restVals⟩
    · rw [popWhile, if_neg hprec]
      · exact ⟨ext_rfl, fun h => h⟩
      · intro x y z h
        simp at h
    · rw [popWhile, if_neg hprec]
      exact ⟨ext_rfl, fun h => h⟩

theorem drainOps_props (values : List ℚ) (ops : List Char) (steps : List String) :
    (∃ l, (drainOps values ops steps).2 = steps ++ l) ∧
      (List.Chain' Ne steps → List.Chain' Ne (drainOps values ops steps).2) := by
  induction values, ops, steps using drainOps.induct with
  | case1 values steps =>
    rw [drainOps]
    exact ⟨ext_rfl, fun h => h⟩
  | case2 op restOps steps b a restVals r happ ih =>
    rw [drainOps, happ]
    exact ⟨ext_trans (addStep_ext _ _) ih.1, fun h => ih.2 (addStep_chain _ h)⟩
  | case3 op restOps steps b a restVals e happ =>
    rw [drainOps, happ]
    exact ⟨ext_rfl, fun h => h⟩
  | case4 values op restOps steps hshape =>
    rcases values with - | ⟨b, values'⟩
    · rw [drainOps]
      · exact ⟨ext_rfl, fun h => h⟩
      · intro x y z h
        simp at h
    rcases values' with - | ⟨a, restVals⟩
    · rw [drainOps]
      · exact ⟨ext_rfl, fun h => h⟩
      · intro x y z h
        simp at h
    · exact absurd rfl (fun h => hshape b a restVals h)

theorem subLoop_props (cs : List Char) (values : List ℚ) (ops currentNum : List Char)
    (steps : List String) :
    (∃ l, (subLoop cs values ops currentNum steps).2 = steps ++ l) ∧
      (List.Chain' Ne steps → List.Chain' Ne (subLoop cs values ops currentNum steps).2) := by
  induction cs, values, ops, currentNum, steps using subLoop.induct with
  | case1 values ops currentNum steps =>
    rw [subLoop]
    exact ⟨ext_rfl, fun h => h⟩
  | case2 ch rest values ops currentNum steps hdig ih =>
    rw [subLoop, if_pos hdig]
    exact ih
  | case3 ch rest values ops currentNum steps hdig e hflush =>
    rw [subLoop, if_neg hdig, hflush]
    exact ⟨ext_rfl, fun h => h⟩
  | case4 ch rest values ops currentNum steps hdig values1 hflush hop values2 ops2 steps2 hpop ih =>
    rw [subLoop, if_neg hdig, hflush]
    dsimp only
    rw [if_pos hop, hpop]
    dsimp only
    have hp := popWhile_props ch values1 ops steps
    rw [hpop] at hp
    exact ⟨ext_trans hp.1 ih.1, fun h => ih.2 (hp.2 h)⟩
  | case5 ch rest values ops currentNum steps hdig values1 hflush hop e steps2 hpop =>
    rw [subLoop, if_neg hdig, hflush]
    dsimp only
    rw [if_pos hop, hpop]
    dsimp only
    have hp := popWhile_props ch values1 ops steps
    rw [hpop] at hp
    exact hp
  | case6 ch rest values ops currentNum steps hdig values1 hflush hop ih =>
    rw [subLoop, if_neg hdig, hflush]
    dsimp only
    rw [if_neg hop]
    exact ih

theorem evaluateSubExpression_props (expr : List Char) (start stop : Nat)
    (steps : List String) :
    (∃ l, (evaluateSubExpression expr start stop steps).2 = steps ++ l) ∧
      (List.Chain' Ne steps →
        List.Chain' Ne (evaluateSubExpression expr start stop steps).2) := by
  rw [evaluateSubExpression]
  rcases hsub : subLoop ((expr.drop start).take (stop + 1 - start)) [] [] [] steps
    with ⟨res, steps1⟩
  have hs := subLoop_props ((expr.drop start).take (stop + 1 - start)) [] [] [] steps
  rw [hsub] at hs
  rcases res with e | ⟨values, ops, currentNum⟩
  · exact hs
  dsimp only
  rcases hflush : flushNum currentNum values with e | values1
  · exact hs
  dsimp only
  rcases hdrain : drainOps values1 ops steps1 with ⟨res2, steps2⟩
  have hd := drainOps_props values1 ops steps1
  rw [hdrain] at hd
  have hcomb : (∃ l, steps2 = steps ++ l) ∧
      (List.Chain' Ne steps → List.Chain' Ne steps2) :=
    ⟨ext_trans hs.1 hd.1, fun h => hd.2 (hs.2 h)⟩
  rcases res2 with e | values2
  · exact hcomb
  dsimp only
  rcases values2 with - | ⟨top, vrest⟩
  · exact hcomb
  · exact hcomb

/-! ## Digit rendering and parsing -/

theorem digChar_isDigit {d : Nat} (h : d < 10) : isDigitChar (digChar d) = true := by
  interval_cases d <;> decide

theorem digitVal_digChar {d : Nat} (h : d < 10) : digitVal (digChar d) = d := by
  interval_cases d <;> decide

theorem digChar_ne_zero {d : Nat} (h : d < 10) (h0 : d ≠ 0) : digChar d ≠ '0' := by
  interval_cases d
  · exact absurd rfl h0
  all_goals decide

theorem digChar_not_dot {d : Nat} (h : d < 10) : digChar d ≠ '.' := by
  interval_cases d <;> decide


theorem natToStrAux_digits :
    ∀ fuel n : Nat, AllDigits (natToStrAux fuel n) := by
  intro fuel
  induction fuel with
  | zero =>
    intro n c hc
    exact absurd hc (by simp [natToStrAux])
  | succ fuel ih =>
    intro n c hc
    rw [natToStrAux] at hc
    split at hc
    · exact absurd hc (by simp)
    · rcases List.mem_append.mp hc with h1 | h2
      · exact ih (n / 10) c h1
      · rcases List.mem_singleton.mp h2 with rfl
        exact digChar_isDigit (Nat.mod_lt n (by norm_num))

theorem valDigits_append_one (xs : List Char) (d : Char) :
    valDigits (xs ++ [d]) = 10 * valDigits xs + digitVal d := by
  rw [valDigits, List.foldl_append]
  rfl

theorem valDigits_natToStrAux :
    ∀ fuel n : Nat, n ≤ fuel → valDigits (natToStrAux fuel n) = n := by
  intro fuel
  induction fuel with
  | zero =>
    intro n h
    interval_cases n
    rfl
  | succ fuel ih =>
    intro n h
    rw [natToStrAux]
    split
    · rename_i h0
      subst h0
      rfl
    · rename_i h0
      rw [valDigits_append_one, ih (n / 10) (by omega),
        digitVal_digChar (by omega : n % 10 < 10)]
      omega

theorem natToStr_digits (n : Nat) : AllDigits (natToStr n) := by
  rw [natToStr]
  split
  · intro c hc
    rcases List.mem_singleton.mp hc with rfl
    decide
  · exact natToStrAux_digits n n

theorem natToStr_ne_nil (n : Nat) : natToStr n ≠ [] := by
  rw [natToStr]
  split
  · simp
  · rename_i h0
    rcases n with - | m
    · exact absurd rfl h0
    · rw [natToStrAux, if_neg h0]
      simp

theorem valDigits_natToStr (n : Nat) : valDigits (natToStr n) = n := by
  rw [natToStr]
  split
  · rename_i h0
    subst h0
    rfl
  · exact valDigits_natToStrAux n n le_rfl

theorem parseDigitsAux_spec :
    ∀ (ds rest : List Char) (acc n : Nat),
      AllDigits ds →
      (∀ c, rest.head? = some c → isDigitChar c = false) →
      parseDigitsAux (ds ++ rest) acc n =
        (ds.foldl (fun a c => 10 * a + digitVal c) acc, n + ds.length, rest) := by
  intro ds
  induction ds with
  | nil =>
    intro rest acc n _ hrest
    rcases rest with - | ⟨c, rest'⟩
    · rfl
    · rw [List.nil_append, parseDigitsAux, if_neg (by simp [hrest c rfl])]
      rfl
  | cons d ds' ih =>
    intro rest acc n hds hrest
    rw [List.cons_append, parseDigitsAux,
      if_pos (hds d (List.mem_cons_self d ds')),
      ih rest _ _ (fun c hc => hds c (List.mem_cons_of_mem d hc)) hrest]
    simp only [List.foldl_cons, List.length_cons]
    refine congrArg _ ?_
    rw [Prod.mk.injEq]
    exact ⟨by omega, rfl⟩

theorem parseDigits_spec {ds rest : List Char}
    (hds : AllDigits ds)
    (hrest : ∀ c, rest.head? = some c → isDigitChar c = false) :
    parseDigits (ds ++ rest) = (valDigits ds, ds.length, rest) := by
  rw [parseDigits, parseDigitsAux_spec ds rest 0 0 hds hrest, valDigits]
  simp

/-! ## The closed form of `formatNumber` -/


theorem formatNumber_eq (num : ℚ) :
    (formatNumber num).data =
      (if rnd (qmul num 100) < 0 then ['-'] else []) ++
        (natToStr ((rnd (qmul num 100)).natAbs / 100) ++
          fracRepr ((rnd (qmul num 100)).natAbs % 100)) := by
  rw [formatNumber, formatFixed2]
  set n : ℤ := rnd (qmul num 100) with hn
  set a : Nat := n.natAbs with ha
  set sign : List Char := if n < 0 then ['-'] else [] with hsign
  set intStr : List Char := natToStr (a / 100) with hint
  set r : Nat := a % 100 with hrdef
  have hr10 : r % 10 < 10 := Nat.mod_lt r (by norm_num)
  have hrd10 : r / 10 < 10 := by omega
  have hshape : sign ++ intStr ++ '.' :: [digChar (a % 100 / 10), digChar (a % 100 % 10)]
      = (sign ++ intStr) ++ ['.', digChar (r / 10), digChar (r % 10)] := by
    rw [List.append_assoc]
  rw [hshape]
  set pre : List Char := sign ++ intStr with hpre
  have hcontains : (pre ++ ['.', digChar (r / 10), digChar (r % 10)]).contains '.' = true := by
    have : '.' ∈ pre ++ ['.', digChar (r / 10), digChar (r % 10)] :=
      List.mem_append.mpr (Or.inr (List.mem_cons_self _ _))
    simpa using this
  rw [if_pos hcontains]
  have hrev : (pre ++ ['.', digChar (r / 10), digChar (r % 10)]).reverse
      = digChar (r % 10) :: digChar (r / 10) :: '.' :: pre.reverse := by
    simp
  rw [hrev]
  by_cases hz2 : r % 10 = 0
  · rw [hz2]
    rw [show digChar 0 = '0' from rfl]
    rw [List.dropWhile_cons, if_pos (by decide)]
    by_cases hz1 : r = 0
    · have hdd : r / 10 = 0 := by omega
      rw [hdd]
      rw [show digChar 0 = '0' from rfl]
      rw [List.dropWhile_cons, if_pos (by decide)]
      rw [List.dropWhile_cons, if_neg (by decide)]
      have hs1 : ('.' :: pre.reverse).reverse = pre ++ ['.'] := by simp
      rw [hs1]
      dsimp only
      rw [List.getLast?_concat]
      have hfr : fracRepr r = [] := by rw [fracRepr, if_pos hz1]
      rw [hfr, List.append_nil]
      split
      · rw [List.dropLast_concat]
      · rename_i hx hne
        exact absurd rfl hne
    · have hd1 : digChar (r / 10) ≠ '0' := digChar_ne_zero hrd10 (by omega)
      rw [List.dropWhile_cons, if_neg (by simpa using hd1)]
      have hs1 : (digChar (r / 10) :: '.' :: pre.reverse).reverse
          = (pre ++ ['.']) ++ [digChar (r / 10)] := by simp
      rw [hs1]
      dsimp only
      rw [List.getLast?_concat]
      have hfr : fracRepr r = ['.', digChar (r / 10)] := by
        rw [fracRepr, if_neg hz1, if_pos hz2]
      rw [hfr]
      split
      · rename_i heq
        injection heq with heq
        exact absurd heq (digChar_not_dot hrd10)
      · show pre ++ ['.'] ++ [digChar (r / 10)] = sign ++ (intStr ++ ['.', digChar (r / 10)])
        rw [hpre]
        simp
  · have hd2 : digChar (r % 10) ≠ '0' := digChar_ne_zero hr10 hz2
    rw [List.dropWhile_cons, if_neg (by simpa using hd2)]
    have hs1 : (digChar (r % 10) :: digChar (r / 10) :: '.' :: pre.reverse).reverse
        = (pre ++ ['.', digChar (r / 10)]) ++ [digChar (r % 10)] := by simp
    rw [hs1]
    dsimp only
    rw [List.getLast?_concat]
    have hfr : fracRepr r = ['.', digChar (r / 10), digChar (r % 10)] := by
      rw [fracRepr, if_neg (by omega), if_neg hz2]
    rw [hfr]
    split
    · rename_i heq
      injection heq with heq
      exact absurd heq (digChar_not_dot hr10)
    · show pre ++ ['.', digChar (r / 10)] ++ [digChar (r % 10)]
          = sign ++ (intStr ++ ['.', digChar (r / 10), digChar (r % 10)])
      rw [hpre]
      simp

theorem digChar_isDigit_any (d : Nat) : isDigitChar (digChar d) = true := by
  by_cases h : d < 10
  · exact digChar_isDigit h
  · have hd : digChar d = '0' := by
      have hlen : digitChars.length <= d := by
        have h10 : digitChars.length = 10 := rfl
        omega
      rw [digChar, List.getD_eq_default _ _ hlen]
    rw [hd]
    decide

theorem fracRepr_cases (r : Nat) :
    fracRepr r = [] ∨ ∃ es, es ≠ [] ∧ AllDigits es ∧ fracRepr r = '.' :: es := by
  rw [fracRepr]
  split
  · exact Or.inl rfl
  split
  · refine Or.inr ⟨[digChar (r / 10)], by simp, ?_, rfl⟩
    intro c hc
    rcases List.mem_singleton.mp hc with rfl
    exact digChar_isDigit_any _
  · refine Or.inr ⟨[digChar (r / 10), digChar (r % 10)], by simp, ?_, rfl⟩
    intro c hc
    rcases List.mem_cons.mp hc with rfl | hc2
    · exact digChar_isDigit_any _
    · rcases List.mem_singleton.mp hc2 with rfl
      exact digChar_isDigit_any _

theorem formatNumber_numShape (num : ℚ) :
    NumShape (natToStr ((rnd (qmul num 100)).natAbs / 100) ++
      fracRepr ((rnd (qmul num 100)).natAbs % 100)) := by
  set a : Nat := (rnd (qmul num 100)).natAbs
  rcases fracRepr_cases (a % 100) with h | ⟨es, hne, hall, heq⟩
  · rw [h, List.append_nil]
    exact Or.inl ⟨natToStr_ne_nil _, natToStr_digits _⟩
  · rw [heq]
    exact Or.inr ⟨natToStr (a / 100), es, natToStr_ne_nil _, hne,
      natToStr_digits _, hall, rfl⟩

/-- `formatNumber` always renders an optional minus sign followed by one
number token — so its output is a valid token sequence, but not a
`NUMBER_PATTERN` match when the value is negative. -/
theorem formatNumber_tokSeq (num : ℚ) : TokSeq (formatNumber num).data := by
  rw [formatNumber_eq]
  split
  · exact TokSeq.cons (t := ['-']) (Or.inr (Or.inr ⟨'-', by decide, rfl⟩))
      (TokSeq.single (Or.inr (Or.inl (formatNumber_numShape num))))
  · rw [List.nil_append]
    exact TokSeq.single (Or.inr (Or.inl (formatNumber_numShape num)))

theorem formatNumber_ne_nil (num : ℚ) : (formatNumber num).data ≠ [] := by
  rw [formatNumber_eq]
  intro h
  rcases List.append_eq_nil.mp h with ⟨-, h2⟩
  rcases List.append_eq_nil.mp h2 with ⟨h3, -⟩
  exact natToStr_ne_nil _ h3

theorem formatNumber_chars (num : ℚ) :
    ∀ c ∈ (formatNumber num).data, c = '-' ∨ isDigitChar c = true ∨ c = '.' := by
  rw [formatNumber_eq]
  intro c hc
  rcases List.mem_append.mp hc with h1 | h2
  · left
    split at h1
    · rcases List.mem_singleton.mp h1 with rfl
      rfl
    · exact absurd h1 (List.not_mem_nil c)
  · rcases List.mem_append.mp h2 with h3 | h4
    · exact Or.inr (Or.inl (natToStr_digits _ c h3))
    · rcases fracRepr_cases ((rnd (qmul num 100)).natAbs % 100) with he | ⟨es, -, hall, he⟩
      · rw [he] at h4
        exact absurd h4 (List.not_mem_nil c)
      · rw [he] at h4
        rcases List.mem_cons.mp h4 with rfl | h5
        · exact Or.inr (Or.inr rfl)
        · exact Or.inr (Or.inl (hall c h5))

theorem formatNumber_no_brackets (num : ℚ) :
    ∀ c ∈ (formatNumber num).data, isBracketChar c = false := by
  intro c hc
  rcases formatNumber_chars num c hc with rfl | hd | rfl
  · decide
  · exact digit_not_bracket hd
  · decide

theorem formatNumber_no_open (num : ℚ) :
    ∀ c ∈ (formatNumber num).data, isOpenBracket c = false := by
  intro c hc
  have hb := formatNumber_no_brackets num c hc
  rw [bracket_eq_open_or_close] at hb
  rcases Bool.or_eq_false_iff.mp hb with ⟨h1, -⟩
  exact h1

/-! ## Evaluating `stodModel` on rendered numbers -/

theorem dropWhile_not_head {p : Char → Bool} {c : Char} (l : List Char)
    (h : p c = false) : List.dropWhile p (c :: l) = c :: l := by
  rw [List.dropWhile_cons, if_neg (by simp [h])]

theorem parseDigitsAux_count_le :
    ∀ (s : List Char) (acc n : Nat), n ≤ (parseDigitsAux s acc n).2.1 := by
  intro s
  induction s with
  | nil => intro acc n; exact le_rfl
  | cons c rest ih =>
    intro acc n
    rw [parseDigitsAux]
    split
    · exact le_trans (Nat.le_succ n) (ih _ _)
    · exact le_rfl

theorem parseDigits_count_pos {c : Char} (hc : isDigitChar c = true)
    (rest : List Char) : (parseDigits (c :: rest)).2.1 ≠ 0 := by
  rw [parseDigits, parseDigitsAux, if_pos hc]
  have := parseDigitsAux_count_le rest (10 * 0 + digitVal c) (0 + 1)
  omega

theorem stod_render (a : Nat) :
    stodModel (natToStr (a / 100) ++ fracRepr (a % 100)) = some ((a : ℚ) / 100) := by
  rcases hds : natToStr (a / 100) with - | ⟨c, ds1⟩
  · exact absurd hds (natToStr_ne_nil _)
  have hall : AllDigits (c :: ds1) := by rw [← hds]; exact natToStr_digits _
  have hc : isDigitChar c = true := hall c (List.mem_cons_self c ds1)
  have hcm : c ≠ '-' := by intro h; rw [h] at hc; exact absurd hc (by decide)
  have hcp : c ≠ '+' := by intro h; rw [h] at hc; exact absurd hc (by decide)
  have hvds : valDigits (c :: ds1) = a / 100 := by rw [← hds]; exact valDigits_natToStr _
  have hth : ∀ x, (fracRepr (a % 100)).head? = some x → isDigitChar x = false := by
    intro x hx
    rw [fracRepr] at hx
    split at hx
    · exact absurd hx (by simp)
    · split at hx <;> · injection hx with hx; rw [← hx]; decide
  rw [List.cons_append, stodModel]
  dsimp only
  rw [dropWhile_not_head _ (digit_not_ws hc)]
  have hns : ¬((c :: (ds1 ++ fracRepr (a % 100))).head? = some '-' ∨
      (c :: (ds1 ++ fracRepr (a % 100))).head? = some '+') := by
    simp [hcm, hcp]
  rw [if_neg hns]
  rw [show (decide ((c :: (ds1 ++ fracRepr (a % 100))).head? = some '-')) = false by
    simp [hcm]]
  rw [← List.cons_append, parseDigits_spec hall hth]
  dsimp only
  rw [show (decide ((c :: ds1).length = 0)) = false by simp]
  rcases hfc : fracRepr (a % 100) with - | ⟨dot, es⟩
  · -- no fractional part: a % 100 = 0
    have hr0 : a % 100 = 0 := by
      by_contra hr
      rw [fracRepr, if_neg hr] at hfc
      split at hfc <;> exact absurd hfc (by simp)
    have hnf : ¬(([] : List Char).head? = some '.') := by simp
    rw [if_neg hnf, Bool.false_and, if_neg (show ¬(false = true) by decide)]
    refine congrArg _ ?_
    rw [if_neg (show ¬(false = true) by decide)]
    rw [qadd_eq, qdiv_eq, hvds]
    have hdvd : (100 : ℕ) ∣ a := Nat.dvd_of_mod_eq_zero hr0
    rw [Nat.cast_div hdvd (by norm_num)]
    push_cast
    ring
  · have hdot : dot = '.' := by
      rw [fracRepr] at hfc
      split at hfc
      · exact absurd hfc (by simp)
      · split at hfc <;> · injection hfc with h1 h2; rw [← h1]
    subst hdot
    rw [if_pos (show ('.' :: es).head? = some '.' from rfl)]
    rw [show ('.' :: es).tail = es from rfl]
    have hr0 : a % 100 ≠ 0 := by
      intro hr
      rw [fracRepr, if_pos hr] at hfc
      exact absurd hfc (by simp)
    by_cases hz2 : a % 100 % 10 = 0
    · have hes : es = [digChar (a % 100 / 10)] := by
        rw [fracRepr, if_neg hr0, if_pos hz2] at hfc
        injection hfc with h1 h2
        rw [h2]
      subst hes
      rw [show [digChar (a % 100 / 10)] = [digChar (a % 100 / 10)] ++ ([] : List Char) by simp]
      rw [parseDigits_spec (by
          intro x hx
          rcases List.mem_singleton.mp hx with rfl
          exact digChar_isDigit_any _) (by intro x hx; exact absurd hx (by simp))]
      dsimp only
      rw [Bool.false_and, if_neg (show ¬(false = true) by decide)]
      refine congrArg _ ?_
      rw [if_neg (show ¬(false = true) by decide)]
      rw [qadd_eq, qdiv_eq, hvds]
      have hv1 : valDigits [digChar (a % 100 / 10)] = a % 100 / 10 := by
        rw [valDigits, List.foldl_cons, List.foldl_nil,
          digitVal_digChar (by omega : a % 100 / 10 < 10)]
        omega
      rw [hv1]
      rw [show ((10 : ℕ) ^ ([digChar (a % 100 / 10)].length) : ℕ) = 10 by simp]
      set q := a / 100 with hq
      set r := a % 100 / 10 with hr
      have h3 : a = 100 * q + 10 * r := by omega
      rw [show ((a : ℚ)) = 100 * (q : ℚ) + 10 * (r : ℚ) by exact_mod_cast congrArg (Nat.cast : ℕ → ℚ) h3]
      push_cast
      field_simp
      ring
    · have hes : es = [digChar (a % 100 / 10), digChar (a % 100 % 10)] := by
        rw [fracRepr, if_neg hr0, if_neg hz2] at hfc
        injection hfc with h1 h2
        rw [h2]
      subst hes
      rw [show [digChar (a % 100 / 10), digChar (a % 100 % 10)]
            = [digChar (a % 100 / 10), digChar (a % 100 % 10)] ++ ([] : List Char) by simp]
      rw [parseDigits_spec (by
          intro x hx
          rcases List.mem_cons.mp hx with rfl | hx2
          · exact digChar_isDigit_any _
          · rcases List.mem_singleton.mp hx2 with rfl
            exact digChar_isDigit_any _) (by intro x hx; exact absurd hx (by simp))]
      dsimp only
      rw [Bool.false_and, if_neg (show ¬(false = true) by decide)]
      refine congrArg _ ?_
      rw [if_neg (show ¬(false = true) by decide)]
      rw [qadd_eq, qdiv_eq, hvds]
      have hv1 : valDigits [digChar (a % 100 / 10), digChar (a % 100 % 10)] = a % 100 := by
        rw [valDigits, List.foldl_cons, List.foldl_cons, List.foldl_nil,
          digitVal_digChar (by omega : a % 100 / 10 < 10),
          digitVal_digChar (by omega : a % 100 % 10 < 10)]
        omega
      rw [hv1]
      rw [show ((10 : ℕ) ^ ([digChar (a % 100 / 10), digChar (a % 100 % 10)].length) : ℕ)
            = 100 by simp]
      set q := a / 100 with hq
      set r := a % 100 with hr
      have h1 : a = 100 * q + r := by omega
      rw [show ((a : ℚ)) = 100 * (q : ℚ) + (r : ℚ) by exact_mod_cast congrArg (Nat.cast : ℕ → ℚ) h1]
      push_cast
      field_simp
      ring

theorem stodModel_cons_neg (c : Char) (r : List Char) (hc : isDigitChar c = true) :
    stodModel ('-' :: c :: r) = (stodModel (c :: r)).map (fun q => -q) := by
  have hcm : c ≠ '-' := by intro h; rw [h] at hc; exact absurd hc (by decide)
  have hcp : c ≠ '+' := by intro h; rw [h] at hc; exact absurd hc (by decide)
  rw [stodModel, stodModel]
  dsimp only
  rw [show List.dropWhile isWSChar ('-' :: c :: r) = '-' :: c :: r from
    dropWhile_not_head _ (by decide)]
  rw [dropWhile_not_head _ (digit_not_ws hc)]
  rw [if_pos (Or.inl (show ('-' :: c :: r).head? = some '-' from rfl))]
  rw [show ('-' :: c :: r).tail = c :: r from rfl]
  rw [show (decide (('-' :: c :: r).head? = some '-')) = true from by simp]
  rw [if_neg (show ¬((c :: r).head? = some '-' ∨ (c :: r).head? = some '+') from by
    simp [hcm, hcp])]
  rw [show (decide ((c :: r).head? = some '-')) = false from by simp [hcm]]
  generalize parseDigits (c :: r) = ip
  generalize (if ip.2.2.head? = some '.' then parseDigits ip.2.2.tail
    else ((0 : Nat), (0 : Nat), ip.2.2)) = fp
  cases hb : (decide (ip.2.1 = 0) && decide (fp.2.1 = 0)) <;> simp

theorem stod_render_neg (a : Nat) :
    stodModel ('-' :: (natToStr (a / 100) ++ fracRepr (a % 100)))
      = some (-((a : ℚ) / 100)) := by
  obtain ⟨c, ds1, hds⟩ : ∃ c ds1, natToStr (a / 100) = c :: ds1 := by
    rcases h : natToStr (a / 100) with - | ⟨c, d⟩
    · exact absurd h (natToStr_ne_nil _)
    · exact ⟨c, d, rfl⟩
  have hc : isDigitChar c = true :=
    natToStr_digits (a / 100) c (by rw [hds]; exact List.mem_cons_self c ds1)
  rw [hds, List.cons_append, stodModel_cons_neg c _ hc, ← List.cons_append, ← hds,
    stod_render]
  rfl

theorem rnd_den_one (y : ℚ) (h : y.den = 1) : rnd y = y.num := by
  rw [rnd, h]
  omega

theorem stod_formatNumber (x : ℚ) (h : (qmul x 100).den = 1) :
    stodModel (formatNumber x).data = some x := by
  have hn : rnd (qmul x 100) = (qmul x 100).num := rnd_den_one _ h
  have hyx : qmul x 100 = x * 100 := qmul_eq x 100
  have hxnum : x = ((qmul x 100).num : ℚ) / 100 := by
    have h1 : ((qmul x 100).num : ℚ) = qmul x 100 := (Rat.den_eq_one_iff _).mp h
    rw [h1, hyx]
    field_simp
  rw [formatNumber_eq, hn]
  rcases le_or_lt 0 (qmul x 100).num with hpos | hneg
  · rw [if_neg (by omega), List.nil_append, stod_render]
    rw [show (((qmul x 100).num.natAbs : ℕ) : ℚ) = ((qmul x 100).num : ℚ) by
      rw [Int.cast_natAbs]; exact_mod_cast abs_of_nonneg hpos]
    rw [← hxnum]
  · rw [if_pos (by omega), List.singleton_append, stod_render_neg]
    rw [show (((qmul x 100).num.natAbs : ℕ) : ℚ) = -((qmul x 100).num : ℚ) by
      rw [Int.cast_natAbs]; exact_mod_cast abs_of_nonpos (le_of_lt hneg)]
    rw [neg_div, neg_neg, ← hxnum]

theorem addStep_nil (s : String) : addStep s [] = [s] := by
  rw [addStep]
  exact if_neg (by simp)

theorem evalLoop_props (fuel : Nat) (cur : List Char) (steps : List String) :
    (∃ l, (evalLoop fuel cur steps).2 = steps ++ l) ∧
      (List.Chain' Ne steps → List.Chain' Ne (evalLoop fuel cur steps).2) := by
  induction fuel generalizing cur steps with
  | zero =>
    rw [evalLoop]
    exact ⟨ext_rfl, fun h => h⟩
  | succ fuel ih =>
    rw [evalLoop]
    rcases hfind : findLastOf isOpenBracket cur with - | openPos
    · dsimp only
      cases hop : containsOperatorChar cur
      · rw [if_neg (by simp)]
        exact ⟨ext_rfl, fun h => h⟩
      · rw [if_pos rfl]
        have he := evaluateSubExpression_props cur 0 (cur.length - 1) steps
        rcases hev : evaluateSubExpression cur 0 (cur.length - 1) steps with ⟨res, steps1⟩
        rw [hev] at he
        rcases res with e | result
        · exact he
        · exact ⟨ext_trans he.1 (addStep_ext _ _),
            fun h => addStep_chain _ (he.2 h)⟩
    · dsimp only
      rcases hclose : findFirstOfFrom isCloseBracket cur openPos with - | closePos
      · exact ⟨ext_rfl, fun h => h⟩
      · dsimp only
        have he := evaluateSubExpression_props cur (openPos + 1) (closePos - 1) steps
        rcases hev : evaluateSubExpression cur (openPos + 1) (closePos - 1) steps
          with ⟨res, steps1⟩
        rw [hev] at he
        rcases res with e | result
        · exact he
        · dsimp only
          have hi := ih (replaceInExpression cur openPos (closePos - openPos + 1)
            result.data) (addStep (String.mk (replaceInExpression cur openPos
              (closePos - openPos + 1) result.data)) steps1)
          exact ⟨ext_trans (ext_trans he.1 (addStep_ext _ _)) hi.1,
            fun h => hi.2 (addStep_chain _ (he.2 h))⟩

theorem evaluate_props (e : String) :
    (∃ l, (evaluate e).2 = [e] ++ l) ∧ List.Chain' Ne (evaluate e).2 := by
  rw [evaluate, addStep_nil]
  rcases hv : validateExpression e.data with err | u
  · exact ⟨ext_rfl, List.chain'_singleton e⟩
  rcases u
  dsimp only
  have hl := evalLoop_props (e.data.countP isOpenBracket + 1) e.data [e]
  rcases hrun : evalLoop (e.data.countP isOpenBracket + 1) e.data [e] with ⟨res, steps1⟩
  rw [hrun] at hl
  have hl2 : (∃ l, steps1 = [e] ++ l) ∧ List.Chain' Ne steps1 :=
    ⟨hl.1, hl.2 (List.chain'_singleton e)⟩
  rcases res with err | u2
  · exact hl2
  rcases u2
  dsimp only
  rcases hlast : steps1.getLast? with - | last
  · exact hl2
  dsimp only
  rcases hstod : stodModel last.data with - | r
  · exact hl2
  · exact hl2

theorem bracketRun_error {l stack : List Char} {e : CalcError}
    (h : bracketRun l stack = .error e) : e = .mismatchedBrackets := by
  induction l generalizing stack with
  | nil =>
    rw [bracketRun] at h
    exact absurd h (by simp)
  | cons c rest ih =>
    rw [bracketRun_cons] at h
    split at h
    · exact ih h
    · split at h
      · rcases stack with - | ⟨top, stackRest⟩
        · dsimp only at h
          injection h with h
          exact h.symm
        · dsimp only at h
          split at h
          · exact ih h
          · injection h with h
            exact h.symm
      · exact ih h

/-! ## Claims -/

/-- Claim C3 (counterexample): the validator rejects `"2 + 3"` — interior
whitespace between tokens fails the regex — while `"2+3"` passes, and the
rejection surfaces as `InvalidFormat` from `evaluate`. -/
theorem interior_whitespace_cex :
    validateExpression "2 + 3".data = .error .invalidFormat ∧
    validateExpression "2+3".data = .ok () ∧
    (evaluate "2 + 3").1 = .error .invalidFormat := by decide

/-- Claim C3 (amended): `validateExpression` reports `InvalidFormat` exactly
when the input is not optional leading whitespace, then a non-empty token
sequence with no interior whitespace, then optional trailing whitespace.
Whitespace is permitted only at the two margins, not between tokens. -/
theorem validator_whitespace_charact (s : List Char) :
    validateExpression s = .error .invalidFormat ↔
      ¬ ∃ w1 t w2, s = w1 ++ (t ++ w2) ∧ (∀ c ∈ w1, isWSChar c = true) ∧
        (∀ c ∈ w2, isWSChar c = true) ∧ TokSeq t ∧ t ≠ [] := by
  rw [← valid_expression_iff, validateExpression]
  cases hm : VALID_EXPRESSION.rmatch s
  · rw [if_neg (by simp)]
    simp
  · rw [if_pos rfl]
    refine iff_of_false ?_ (by simp)
    rcases hbr : bracketRun s [] with e | stack
    · have he := bracketRun_error hbr
      subst he
      simp
    · rcases stack with - | ⟨top, rest⟩ <;> simp

/-- Claim C4: the precedence table is `^` = 3, `*` and `/` = 2, `+` and
`-` = 1, and the four example evaluations of the spec hold, including
left-associated `2^3^2 = 64`. -/
theorem precedence_and_examples :
    getPrecedence '^' = 3 ∧ getPrecedence '*' = 2 ∧ getPrecedence '/' = 2 ∧
    getPrecedence '+' = 1 ∧ getPrecedence '-' = 1 ∧
    (evaluate "2+3").1 = .ok (5 : ℚ) ∧
    (evaluate "2+3*4").1 = .ok (14 : ℚ) ∧
    (evaluate "(2+3)*4").1 = .ok (20 : ℚ) ∧
    (evaluate "2^3^2").1 = .ok (64 : ℚ) := by decide

/-- Claim C6: `applyOperation` with `'/'` fails with `DivisionByZero` exactly
when the right operand is zero, returns the exact quotient otherwise, and
`evaluate "5/0"` fails with `DivisionByZero`. -/
theorem division_by_zero_charact :
    (∀ a b : ℚ, applyOperation a b '/' = .error .divisionByZero ↔ b = 0) ∧
    (∀ a b : ℚ, ¬b = 0 → applyOperation a b '/' = .ok (a / b)) ∧
    (evaluate "5/0").1 = .error .divisionByZero := by
  have key : ∀ a b : ℚ, applyOperation a b '/' =
      if b = 0 then .error .divisionByZero else .ok (qdiv a b) := by
    intro a b
    rw [applyOperation, if_neg (by decide : ¬('/' : Char) = '+'),
      if_neg (by decide : ¬('/' : Char) = '-'),
      if_neg (by decide : ¬('/' : Char) = '*'), if_pos rfl]
  refine ⟨?_, ?_, by decide⟩
  · intro a b
    rw [key]
    constructor
    · intro h
      by_contra hb
      rw [if_neg hb] at h
      exact absurd h (by simp)
    · intro h
      rw [if_pos h]
  · intro a b hb
    rw [key, if_neg hb, qdiv_eq]

theorem division_by_zero_charact_witness :
    (applyOperation 1 (qmk 0 1) '/' = .error .divisionByZero ↔ (qmk 0 1 : ℚ) = 0) ∧
    (¬(qmk 2 1 : ℚ) = 0 ∧ applyOperation 1 (qmk 2 1) '/' = .ok ((1 : ℚ) / qmk 2 1)) :=
  ⟨division_by_zero_charact.1 1 (qmk 0 1),
    by decide, division_by_zero_charact.2.1 1 (qmk 2 1) (by decide)⟩

/-- Claim C7: the three bracket-error examples of the spec, and the
characterization of `isMatchingPair`: a parenthesis closes only a
parenthesis and a brace only a brace. -/
theorem bracket_mismatch_errors :
    (evaluate "(2+3").1 = .error .unclosedBrackets ∧
    (evaluate "2+3)").1 = .error .mismatchedBrackets ∧
    (evaluate "{1+2)}").1 = .error .mismatchedBrackets ∧
    (∀ o c : Char, isMatchingPair o c = true ↔
      (o = '(' ∧ c = ')') ∨ (o = '{' ∧ c = '}')) := by
  refine ⟨by decide, by decide, by decide, ?_⟩
  intro o c
  rw [isMatchingPair]
  simp

/-- Claim C8 (counterexample): `"1.23.4"` is accepted and evaluates to
`1.23` with trace `["1.23.4"]`, but no numeric suffix of the last trace
entry has the returned value — the trailing literal does not equal the
result. -/
theorem trace_trailing_literal_cex :
    (evaluate "1.23.4").1 = .ok (qmk 123 100) ∧
    (evaluate "1.23.4").2 = ["1.23.4"] ∧
    (∀ k, k < "1.23.4".data.length →
      NUMBER_PATTERN.rmatch ("1.23.4".data.drop k) = true →
      stodModel ("1.23.4".data.drop k) ≠ some (qmk 123 100)) := by decide

/-- Claim C8 (amended): for every successful evaluation the trace is
non-empty, no two adjacent entries are equal, and the returned result is
the `std::stod` parse (longest numeric prefix) of the last entry — which
is the entry's trailing literal only when the entry is a single
well-formed literal. -/
theorem trace_last_parses_to_result (e : String) (r : ℚ)
    (h : (evaluate e).1 = .ok r) :
    (evaluate e).2 ≠ [] ∧ List.Chain' Ne (evaluate e).2 ∧
    ∃ last, (evaluate e).2.getLast? = some last ∧ stodModel last.data = some r := by
  have hp := evaluate_props e
  refine ⟨(ext_head hp.1 (by simp)).2, hp.2, ?_⟩
  rw [evaluate] at h ⊢
  rcases hv : validateExpression e.data with err | u
  · rw [hv] at h
    exact absurd h (by simp)
  rcases u
  rw [hv] at h
  dsimp only at h ⊢
  rcases hrun : evalLoop (e.data.countP isOpenBracket + 1) e.data
    (addStep e []) with ⟨res, steps1⟩
  rw [hrun] at h
  rcases res with err | u2
  · exact absurd h (by simp)
  rcases u2
  dsimp only at h ⊢
  rcases hlast : steps1.getLast? with - | last
  · rw [hlast] at h
    exact absurd h (by simp)
  rw [hlast] at h
  dsimp only at h ⊢
  rcases hstod : stodModel last.data with - | r0
  · rw [hstod] at h
    exact absurd h (by simp)
  · rw [hstod] at h
    dsimp only at h ⊢
    injection h with h
    subst h
    exact ⟨last, hlast, hstod⟩

theorem trace_last_parses_to_result_witness :
    (evaluate "2+3").1 = .ok (5 : ℚ) ∧
    ((evaluate "2+3").2 ≠ [] ∧ List.Chain' Ne (evaluate "2+3").2 ∧
      ∃ last, (evaluate "2+3").2.getLast? = some last ∧
        stodModel last.data = some (5 : ℚ)) :=
  ⟨by decide, trace_last_parses_to_result "2+3" (5 : ℚ) (by decide)⟩

/-- Claim C9: formatting is idempotent through parsing — for every rational
representable with two decimal digits, parsing `formatNumber`'s rendering
and formatting again reproduces the rendering (indeed parsing recovers the
value exactly); `4.00` renders as `"4"` and `4.50` as `"4.5"`. -/
theorem format_parse_format (x : ℚ) (h : (qmul x 100).den = 1) :
    (stodModel (formatNumber x).data).map formatNumber = some (formatNumber x) ∧
    formatNumber (4 : ℚ) = "4" ∧ formatNumber (qmk 9 2) = "4.5" := by
  refine ⟨?_, by decide, by decide⟩
  rw [stod_formatNumber x h, Option.map_some']

theorem format_parse_format_witness :
    (qmul (qmk 9 2) 100).den = 1 ∧
    (stodModel (formatNumber (qmk 9 2)).data).map formatNumber
      = some (formatNumber (qmk 9 2)) :=
  ⟨by decide, (format_parse_format (qmk 9 2) (by decide)).1⟩

/-- Claim C10: the first trace entry of every `evaluate` call — including
failing ones — is the verbatim input, and a bracket-free, operator-free
input leaves a trace of exactly one entry, the input itself. -/
theorem trace_first_entry :
    (∀ e : String, ((evaluate e).2).head? = some e) ∧
    (∀ e : String, findLastOf isOpenBracket e.data = none →
      containsOperatorChar e.data = false → (evaluate e).2 = [e]) := by
  constructor
  · intro e
    rw [(ext_head (evaluate_props e).1 (by simp)).1]
    rfl
  · intro e h1 h2
    rw [evaluate, addStep_nil]
    rcases hv : validateExpression e.data with err | u
    · rfl
    rcases u
    dsimp only
    rw [evalLoop, h1]
    dsimp only
    rw [h2, if_neg (by simp)]
    dsimp only
    rw [show ([e] : List String).getLast? = some e from rfl]
    dsimp only
    rcases hstod : stodModel e.data with - | r
    · rfl
    · rfl

theorem trace_first_entry_witness :
    (findLastOf isOpenBracket "42".data = none ∧
      containsOperatorChar "42".data = false ∧
      (evaluate "42").2 = ["42"]) ∧
    ((evaluate "7").2).head? = some "7" :=
  ⟨⟨by decide, by decide, trace_first_entry.2 "42" (by decide) (by decide)⟩,
    trace_first_entry.1 "7"⟩

/-! ## Stack-safety of the flat reducer -/



theorem applyOperation_error {a b : ℚ} {op : Char} {e : CalcError}
    (h : applyOperation a b op = .error e) :
    e = .divisionByZero ∨ e = .invalidOperator := by
  rw [applyOperation] at h
  split_ifs at h
  all_goals
    first
      | exact Except.noConfusion h
      | (injection h with h
         subst h
         first
           | exact Or.inl rfl
           | exact Or.inr rfl)

theorem popWhile_safe (c : Char) (values : List ℚ) (ops : List Char)
    (steps : List String) :
    values.length = ops.length + 1 →
    ((popWhile c values ops steps).1 ≠ .error .stackUnderflow) ∧
    (∀ vs os, (popWhile c values ops steps).1 = .ok (vs, os) →
      vs.length = os.length + 1) := by
  induction values, ops, steps using popWhile.induct c with
  | case1 values steps =>
    intro h
    rw [popWhile]
    refine ⟨by simp, ?_⟩
    intro vs os h1
    injection h1 with h1
    cases h1
    simpa using h
  | case2 op restOps steps hprec b a restVals r happ ih =>
    intro h
    rw [popWhile, if_pos hprec, happ]
    exact ih (by simp only [List.length_cons] at h ⊢; omega)
  | case3 op restOps steps hprec b a restVals e happ =>
    intro h
    rw [popWhile, if_pos hprec, happ]
    dsimp only
    constructor
    · intro h1
      injection h1 with h1
      rcases applyOperation_error happ with rfl | rfl
      · exact absurd h1 (by decide)
      · exact absurd h1 (by decide)
    · intro vs os h1
      exact absurd h1 (by simp)
  | case4 values op restOps steps hprec hshape =>
    intro h
    rcases values with - | ⟨b, values'⟩
    · simp only [List.length_nil, List.length_cons] at h
      omega
    rcases values' with - | ⟨a, restVals⟩
    · simp only [List.length_nil, List.length_cons] at h
      omega
    · exact absurd rfl (fun hh => hshape b a restVals hh)
  | case5 values op restOps steps hprec =>
    intro h
    rcases values with - | ⟨b, values'⟩
    · rw [popWhile, if_neg hprec]
      · refine ⟨by simp, ?_⟩
        intro vs os h1
        injection h1 with h1
        cases h1
        exact h
      · intro x y z hh
        simp at hh
    rcases values' with - | ⟨a, restVals⟩
    · rw [popWhile, if_neg hprec]
      · refine ⟨by simp, ?_⟩
        intro vs os h1
        injection h1 with h1
        cases h1
        exact h
      · intro x y z hh
        simp at hh
    · rw [popWhile, if_neg hprec]
      refine ⟨by simp, ?_⟩
      intro vs os h1
      injection h1 with h1
      cases h1
      exact h

theorem drainOps_safe (values : List ℚ) (ops : List Char) (steps : List String) :
    values.length = ops.length + 1 →
    ((drainOps values ops steps).1 ≠ .error .stackUnderflow) ∧
    (∀ vs, (drainOps values ops steps).1 = .ok vs → vs.length = 1) := by
  induction values, ops, steps using drainOps.induct with
  | case1 values steps =>
    intro h
    rw [drainOps]
    refine ⟨by simp, ?_⟩
    intro vs h1
    injection h1 with h1
    cases h1
    simpa using h
  | case2 op restOps steps b a restVals r happ ih =>
    intro h
    rw [drainOps, happ]
    exact ih (by simp only [List.length_cons] at h ⊢; omega)
  | case3 op restOps steps b a restVals e happ =>
    intro h
    rw [drainOps, happ]
    dsimp only
    constructor
    · intro h1
      injection h1 with h1
      rcases applyOperation_error happ with rfl | rfl
      · exact absurd h1 (by decide)
      · exact absurd h1 (by decide)
    · intro vs h1
      exact absurd h1 (by simp)
  | case4 values op restOps steps hshape =>
    intro h
    rcases values with - | ⟨b, values'⟩
    · simp only [List.length_nil, List.length_cons] at h
      omega
    rcases values' with - | ⟨a, restVals⟩
    · simp only [List.length_nil, List.length_cons] at h
      omega
    · exact absurd rfl (fun hh => hshape b a restVals hh)

theorem operator_not_digit_dot {c : Char} (h : isOperator c = true) :
    (isDigitChar c || c = '.') = false := by
  have hm := isOperator_iff.mp h
  simp only [opChars, List.mem_cons, List.not_mem_nil, or_false] at hm
  rcases hm with rfl | rfl | rfl | rfl | rfl <;> rfl

theorem subLoop_chunk (n tail : List Char) (values : List ℚ)
    (ops acc : List Char) (steps : List String)
    (hn : ∀ c ∈ n, (isDigitChar c || c = '.') = true) :
    subLoop (n ++ tail) values ops acc steps
      = subLoop tail values ops (acc ++ n) steps := by
  induction n generalizing acc with
  | nil => simp
  | cons c rest ih =>
    rw [List.cons_append, subLoop, if_pos (hn c (List.mem_cons_self c rest))]
    rw [ih _ (fun x hx => hn x (List.mem_cons_of_mem _ hx))]
    simp

theorem flushNum_error {cn : List Char} {values : List ℚ} {e : CalcError}
    (h : flushNum cn values = .error e) : e = .stodFailure := by
  rw [flushNum] at h
  by_cases hemp : cn.isEmpty = true
  · rw [if_pos hemp] at h
    exact absurd h (by simp)
  · rw [if_neg hemp] at h
    rcases hstod : stodModel cn with - | v <;> rw [hstod] at h
    · injection h with h
      exact h.symm
    · exact absurd h (by simp)

theorem flushNum_len {cn : List Char} {values values1 : List ℚ}
    (hne : cn ≠ []) (h : flushNum cn values = .ok values1) :
    values1.length = values.length + 1 := by
  rw [flushNum] at h
  rw [if_neg (by simpa using hne)] at h
  rcases hstod : stodModel cn with - | v <;> rw [hstod] at h
  · exact absurd h (by simp)
  · injection h with h
    rw [← h]
    rfl

theorem subLoop_flat {t : List Char} (hw : FlatWF t) :
    ∀ values ops steps, values.length = ops.length →
    ((subLoop t values ops [] steps).1 ≠ .error .stackUnderflow) ∧
    (∀ vs os cn, (subLoop t values ops [] steps).1 = .ok (vs, os, cn) →
      vs.length = os.length ∧ cn ≠ []) := by
  induction hw with
  | single hnum =>
    rename_i n
    intro values ops steps h
    rw [show n = n ++ ([] : List Char) from (List.append_nil n).symm,
      subLoop_chunk n [] values ops [] steps hnum.2, List.nil_append, subLoop]
    refine ⟨by simp, ?_⟩
    intro vs os cn h1
    injection h1 with h1
    injection h1 with h1 h2
    injection h2 with h2 h3
    subst h1; subst h2; subst h3
    exact ⟨h, hnum.1⟩
  | cons op hn hop hrest ih =>
    rename_i n rest
    intro values ops steps h
    rw [subLoop_chunk n (op :: rest) values ops [] steps hn.2, List.nil_append, subLoop]
    rw [if_neg (by rw [operator_not_digit_dot hop]; simp)]
    rcases hfl : flushNum n values with e | values1
    · dsimp only
      refine ⟨?_, by intro vs os cn h1; exact absurd h1 (by simp)⟩
      intro h1
      injection h1 with h1
      rw [flushNum_error hfl] at h1
      exact absurd h1.symm (by decide)
    · dsimp only
      rw [if_pos hop]
      have hp := popWhile_safe op values1 ops steps
        (by rw [flushNum_len hn.1 hfl, h])
      rcases hpop : popWhile op values1 ops steps with ⟨pres, steps2⟩
      rw [hpop] at hp
      rcases pres with e | ⟨values2, ops2⟩
      · dsimp only
        dsimp only at hp
        refine ⟨?_, by intro vs os cn h1; exact absurd h1 (by simp)⟩
        intro h1
        injection h1 with h1
        subst h1
        exact hp.1 rfl
      · dsimp only
        exact ih values2 (op :: ops2) steps2
          (by rw [hp.2 values2 ops2 rfl]; rfl)

theorem evaluateSubExpression_flat (expr : List Char) (start stop : Nat)
    (steps : List String)
    (hw : FlatWF ((expr.drop start).take (stop + 1 - start))) :
    (evaluateSubExpression expr start stop steps).1 ≠ .error .stackUnderflow := by
  rw [evaluateSubExpression]
  have hs := subLoop_flat hw [] [] steps rfl
  rcases hsub : subLoop ((expr.drop start).take (stop + 1 - start)) [] [] [] steps
    with ⟨res, steps1⟩
  rw [hsub] at hs
  rcases res with e | ⟨values, ops, cn⟩
  · dsimp only
    intro h1
    injection h1 with h1
    subst h1
    exact hs.1 rfl
  dsimp only
  obtain ⟨hlen, hcn⟩ := hs.2 values ops cn rfl
  rcases hfl : flushNum cn values with e | values1
  · dsimp only
    intro h1
    injection h1 with h1
    rw [flushNum_error hfl] at h1
    exact absurd h1.symm (by decide)
  dsimp only
  have hd := drainOps_safe values1 ops steps1 (by rw [flushNum_len hcn hfl, hlen])
  rcases hdrain : drainOps values1 ops steps1 with ⟨res2, steps2⟩
  rw [hdrain] at hd
  rcases res2 with e | values2
  · dsimp only
    dsimp only at hd
    intro h1
    injection h1 with h1
    subst h1
    exact hd.1 rfl
  dsimp only
  rcases values2 with - | ⟨top, vrest⟩
  · have := hd.2 [] rfl
    simp at this
  · simp

/-- Claim C2 (counterexample): `"1+"` is accepted by the validator, yet the
end-of-input drain pops two operands with only one on the stack — the C++
underflows (undefined behaviour), modelled as `stackUnderflow`. -/
theorem validated_underflow_cex :
    validateExpression "1+".data = .ok () ∧
    (evaluate "1+").1 = .error .stackUnderflow := by decide

/-- Claim C2 (amended): validator acceptance alone does not make the operand
pops legal; the guarantee holds for spans that are number chunks alternating
with operators (starting and ending with a chunk).  For such spans neither
the precedence-pop loop, nor the end-of-input drain, nor the final result
pop ever underflows. -/
theorem flat_reduction_no_underflow (expr : List Char) (start stop : Nat)
    (steps : List String)
    (hw : FlatWF ((expr.drop start).take (stop + 1 - start))) :
    (evaluateSubExpression expr start stop steps).1 ≠ .error .stackUnderflow :=
  evaluateSubExpression_flat expr start stop steps hw

theorem flat_reduction_no_underflow_witness :
    (evaluateSubExpression "2+3".data 0 2 []).1 ≠ .error .stackUnderflow :=
  flat_reduction_no_underflow "2+3".data 0 2 []
    (show FlatWF (("2+3".data.drop 0).take 3) from
      @FlatWF.cons ['2'] '+' ['3'] ⟨by decide, by decide⟩ (by decide)
        (FlatWF.single ⟨by decide, by decide⟩))

/-! ## Geometry of the bracket-resolution loop -/

theorem validateExpression_ok {e : List Char} (h : validateExpression e = .ok ()) :
    VALID_EXPRESSION.rmatch e = true ∧ bracketRun e [] = .ok [] := by
  rw [validateExpression] at h
  by_cases hm : VALID_EXPRESSION.rmatch e = true
  · rw [if_pos hm] at h
    refine ⟨hm, ?_⟩
    rcases hbr : bracketRun e [] with err | stack
    · rw [hbr] at h
      exact absurd h (by simp)
    · rcases stack with - | ⟨t, r⟩
      · exact rfl
      · rw [hbr] at h
        exact absurd h (by simp)
  · rw [if_neg hm] at h
    exact absurd h (by simp)

/-- At the last opener of a balanced text: full decomposition, the position
returned by `find_first_of(")}", openPos)`, and the kind match. -/
theorem balanced_last_opener {cur : List Char} {openPos : Nat}
    (hbal : bracketRun cur [] = .ok [])
    (ho : findLastOf isOpenBracket cur = some openPos) :
    ∃ a o m cl b, cur = a ++ o :: (m ++ cl :: b) ∧ a.length = openPos ∧
      isOpenBracket o = true ∧ isCloseBracket cl = true ∧
      isMatchingPair o cl = true ∧ (∀ c ∈ m, isBracketChar c = false) ∧
      findFirstOfFrom isCloseBracket cur openPos = some (openPos + (m.length + 1)) ∧
      (∀ stack, bracketRun (o :: (m ++ cl :: b)) stack = bracketRun b stack) := by
  rcases findLastOf_eq_some.mp ho with ⟨a, o, q, hsplit, hlen, hopen, hq⟩
  rcases bracket_geometry hbal hsplit hopen hq with ⟨m, cl, b, hqeq, hm, hcl, hmatch, hdrop⟩
  subst hqeq
  refine ⟨a, o, m, cl, b, hsplit, hlen, hopen, hcl, hmatch, hm, ?_, hdrop⟩
  rw [findFirstOfFrom, hsplit, ← hlen, List.drop_left]
  have hfo : findFirstOf isCloseBracket (o :: (m ++ cl :: b)) = some (m.length + 1) := by
    apply findFirstOf_eq_some.mpr
    refine ⟨o :: m, cl, b, by simp, by simp, hcl, ?_⟩
    intro x hx
    rcases List.mem_cons.mp hx with rfl | hxm
    · exact open_not_close hopen
    · cases hc : isCloseBracket x
      · rfl
      · exact absurd (close_isBracket hc) (by simp [hm x hxm])
  rw [hfo, Option.map_some']
  congr 1
  omega

/-- Substituting a bracket-free literal for the matched bracket span keeps
the bracket scan balanced. -/
theorem replace_preserves_balance {cur : List Char} {openPos closePos : Nat}
    (hbal : bracketRun cur [] = .ok [])
    (ho : findLastOf isOpenBracket cur = some openPos)
    (hc : findFirstOfFrom isCloseBracket cur openPos = some closePos)
    {lit : List Char} (hlit : ∀ c ∈ lit, isBracketChar c = false) :
    bracketRun (replaceInExpression cur openPos (closePos - openPos + 1) lit) []
      = .ok [] := by
  rcases balanced_last_opener hbal ho with
    ⟨a, o, m, cl, b, hsplit, hlen, hopen, hcl, hmatch, hm, hfff, hdrop⟩
  rw [hc] at hfff
  injection hfff with hcp
  subst hcp
  rw [replaceInExpression, hsplit, ← hlen, List.take_left]
  have hidx : a.length + (a.length + (m.length + 1) - a.length + 1)
      = a.length + (m.length + 2) := by omega
  rw [hidx]
  have hdropped : (a ++ o :: (m ++ cl :: b)).drop (a.length + (m.length + 2)) = b := by
    rw [List.drop_append]
    rw [show m.length + 2 = (m.length + 1) + 1 from rfl, List.drop_succ_cons]
    rw [show m.length + 1 = m.length + 1 from rfl, List.drop_append]
    rw [List.drop_succ_cons, List.drop_zero]
  rw [hdropped]
  rw [hsplit, bracketRun_append] at hbal
  rcases ha : bracketRun a [] with err | sa
  · rw [ha] at hbal
    exact absurd hbal (by simp)
  rw [ha] at hbal
  dsimp only at hbal
  rw [hdrop sa] at hbal
  rw [bracketRun_append, bracketRun_append, ha]
  dsimp only
  rw [bracketRun_no_brackets hlit sa]
  dsimp only
  exact hbal

theorem popWhile_err (c : Char) (values : List ℚ) (ops : List Char)
    (steps : List String) :
    ∀ e, (popWhile c values ops steps).1 = .error e → e ≠ .mismatchedBrackets := by
  induction values, ops, steps using popWhile.induct c with
  | case1 values steps =>
    intro e h
    rw [popWhile] at h
    exact absurd h (by simp)
  | case2 op restOps steps hprec b a restVals r happ ih =>
    intro e h
    rw [popWhile, if_pos hprec, happ] at h
    exact ih e h
  | case3 op restOps steps hprec b a restVals e0 happ =>
    intro e h
    rw [popWhile, if_pos hprec, happ] at h
    dsimp only at h
    injection h with h
    subst h
    rcases applyOperation_error happ with rfl | rfl
    · decide
    · decide
  | case4 values op restOps steps hprec hshape =>
    intro e h
    rcases values with - | ⟨b, values'⟩
    · rw [popWhile, if_pos hprec] at h
      · dsimp only at h
        injection h with h
        subst h
        decide
      · intro x y z hh
        simp at hh
    rcases values' with - | ⟨a, restVals⟩
    · rw [popWhile, if_pos hprec] at h
      · dsimp only at h
        injection h with h
        subst h
        decide
      · intro x y z hh
        simp at hh
    · exact absurd rfl (fun hh => hshape b a restVals hh)
  | case5 values op restOps steps hprec =>
    intro e h
    rcases values with - | ⟨b, values'⟩
    · rw [popWhile, if_neg hprec] at h
      · exact absurd h (by simp)
      · intro x y z hh
        simp at hh
    rcases values' with - | ⟨a, restVals⟩
    · rw [popWhile, if_neg hprec] at h
      · exact absurd h (by simp)
      · intro x y z hh
        simp at hh
    · rw [popWhile, if_neg hprec] at h
      exact absurd h (by simp)

theorem drainOps_err (values : List ℚ) (ops : List Char) (steps : List String) :
    ∀ e, (drainOps values ops steps).1 = .error e → e ≠ .mismatchedBrackets := by
  induction values, ops, steps using drainOps.induct with
  | case1 values steps =>
    intro e h
    rw [drainOps] at h
    exact absurd h (by simp)
  | case2 op restOps steps b a restVals r happ ih =>
    intro e h
    rw [drainOps, happ] at h
    exact ih e h
  | case3 op restOps steps b a restVals e0 happ =>
    intro e h
    rw [drainOps, happ] at h
    dsimp only at h
    injection h with h
    subst h
    rcases applyOperation_error happ with rfl | rfl
    · decide
    · decide
  | case4 values op restOps steps hshape =>
    intro e h
    rcases values with - | ⟨b, values'⟩
    · rw [drainOps] at h
      · dsimp only at h
        injection h with h
        subst h
        decide
      · intro x y z hh
        simp at hh
    rcases values' with - | ⟨a, restVals⟩
    · rw [drainOps] at h
      · dsimp only at h
        injection h with h
        subst h
        decide
      · intro x y z hh
        simp at hh
    · exact absurd rfl (fun hh => hshape b a restVals hh)

theorem subLoop_err (cs : List Char) (values : List ℚ) (ops currentNum : List Char)
    (steps : List String) :
    ∀ e, (subLoop cs values ops currentNum steps).1 = .error e →
      e ≠ .mismatchedBrackets := by
  induction cs, values, ops, currentNum, steps using subLoop.induct with
  | case1 values ops currentNum steps =>
    intro e h
    rw [subLoop] at h
    exact absurd h (by simp)
  | case2 ch rest values ops currentNum steps hdig ih =>
    intro e h
    rw [subLoop, if_pos hdig] at h
    exact ih e h
  | case3 ch rest values ops currentNum steps hdig e0 hflush =>
    intro e h
    rw [subLoop, if_neg hdig, hflush] at h
    dsimp only at h
    injection h with h
    subst h
    rw [flushNum_error hflush]
    decide
  | case4 ch rest values ops currentNum steps hdig values1 hflush hop values2 ops2 steps2 hpop ih =>
    intro e h
    rw [subLoop, if_neg hdig, hflush] at h
    dsimp only at h
    rw [if_pos hop, hpop] at h
    dsimp only at h
    exact ih e h
  | case5 ch rest values ops currentNum steps hdig values1 hflush hop e0 steps2 hpop =>
    intro e h
    rw [subLoop, if_neg hdig, hflush] at h
    dsimp only at h
    rw [if_pos hop, hpop] at h
    dsimp only at h
    injection h with h
    subst h
    exact popWhile_err ch values1 ops steps e0 (by rw [hpop])
  | case6 ch rest values ops currentNum steps hdig values1 hflush hop ih =>
    intro e h
    rw [subLoop, if_neg hdig, hflush] at h
    dsimp only at h
    rw [if_neg hop] at h
    exact ih e h

theorem evaluateSubExpression_err (expr : List Char) (start stop : Nat)
    (steps : List String) :
    ∀ e, (evaluateSubExpression expr start stop steps).1 = .error e →
      e ≠ .mismatchedBrackets := by
  intro e h
  rw [evaluateSubExpression] at h
  rcases hsub : subLoop ((expr.drop start).take (stop + 1 - start)) [] [] [] steps
    with ⟨res, steps1⟩
  rw [hsub] at h
  rcases res with e0 | ⟨values, ops, cn⟩
  · dsimp only at h
    injection h with h
    subst h
    exact subLoop_err _ [] [] [] steps e0 (by rw [hsub])
  dsimp only at h
  rcases hfl : flushNum cn values with e0 | values1
  · rw [hfl] at h
    dsimp only at h
    injection h with h
    subst h
    rw [flushNum_error hfl]
    decide
  rw [hfl] at h
  dsimp only at h
  rcases hdrain : drainOps values1 ops steps1 with ⟨res2, steps2⟩
  rw [hdrain] at h
  rcases res2 with e0 | values2
  · dsimp only at h
    injection h with h
    subst h
    exact drainOps_err values1 ops steps1 e0 (by rw [hdrain])
  dsimp only at h
  rcases values2 with - | ⟨top, vrest⟩
  · dsimp only at h
    injection h with h
    subst h
    decide
  · dsimp only at h
    exact absurd h (by simp)

theorem evaluateSubExpression_ok_format (expr : List Char) (start stop : Nat)
    (steps : List String) :
    ∀ res, (evaluateSubExpression expr start stop steps).1 = .ok res →
      ∃ v, res = formatNumber v := by
  intro res h
  rw [evaluateSubExpression] at h
  rcases hsub : subLoop ((expr.drop start).take (stop + 1 - start)) [] [] [] steps
    with ⟨sres, steps1⟩
  rw [hsub] at h
  rcases sres with e0 | ⟨values, ops, cn⟩
  · exact absurd h (by simp)
  dsimp only at h
  rcases hfl : flushNum cn values with e0 | values1
  · rw [hfl] at h
    exact absurd h (by simp)
  rw [hfl] at h
  dsimp only at h
  rcases hdrain : drainOps values1 ops steps1 with ⟨res2, steps2⟩
  rw [hdrain] at h
  rcases res2 with e0 | values2
  · exact absurd h (by simp)
  dsimp only at h
  rcases values2 with - | ⟨top, vrest⟩
  · exact absurd h (by simp)
  · dsimp only at h
    injection h with h
    exact ⟨top, h.symm⟩

theorem evalLoop_no_mismatch : ∀ (fuel : Nat) (cur : List Char) (steps : List String),
    bracketRun cur [] = .ok [] →
    (evalLoop fuel cur steps).1 ≠ .error .mismatchedBrackets := by
  intro fuel
  induction fuel with
  | zero =>
    intro cur steps hbal
    rw [evalLoop]
    intro h1
    injection h1 with h1
    exact absurd h1 (by decide)
  | succ fuel ih =>
    intro cur steps hbal
    rw [evalLoop]
    rcases hfind : findLastOf isOpenBracket cur with - | openPos
    · dsimp only
      cases hop : containsOperatorChar cur
      · rw [if_neg (by simp)]
        simp
      · rw [if_pos rfl]
        rcases hev : evaluateSubExpression cur 0 (cur.length - 1) steps with ⟨res, steps1⟩
        rcases res with e | result
        · dsimp only
          intro h1
          injection h1 with h1
          exact evaluateSubExpression_err cur 0 (cur.length - 1) steps e (by rw [hev]) h1
        · dsimp only
          simp
    · dsimp only
      rcases balanced_last_opener hbal hfind with
        ⟨a, o, m, cl, b, hsplit, hlen, hopen, hcl, hmatch, hm, hfff, hdrop⟩
      rcases hclose : findFirstOfFrom isCloseBracket cur openPos with - | closePos
      · rw [hclose] at hfff
        exact absurd hfff (by simp)
      · dsimp only
        rcases hev : evaluateSubExpression cur (openPos + 1) (closePos - 1) steps
          with ⟨res, steps1⟩
        rcases res with e | result
        · dsimp only
          intro h1
          injection h1 with h1
          exact evaluateSubExpression_err cur (openPos + 1) (closePos - 1) steps e
            (by rw [hev]) h1
        · dsimp only
          apply ih
          rcases evaluateSubExpression_ok_format cur (openPos + 1) (closePos - 1) steps
            result (by rw [hev]) with ⟨v, rfl⟩
          exact replace_preserves_balance hbal hfind hclose (formatNumber_no_brackets v)

/-- Claim C5: for a validator-accepted input the initial text passes the
bracket scan; on every balanced text (hence at every iteration of the
loop, balance being preserved by each substitution) the rightmost opener
has a closer to its right, the nearest one, of matching kind, with a
bracket-free span between them; substituting any bracket-free literal for
the span keeps the text balanced; and the driver loop can never return
`MismatchedBrackets`. -/
theorem bracket_geometry_invariant (e : List Char)
    (hv : validateExpression e = .ok ()) :
    bracketRun e [] = .ok [] ∧
    (∀ cur, bracketRun cur [] = .ok [] →
      (∀ openPos, findLastOf isOpenBracket cur = some openPos →
        ∃ closePos o cl,
          findFirstOfFrom isCloseBracket cur openPos = some closePos ∧
          openPos < closePos ∧
          cur.get? openPos = some o ∧ cur.get? closePos = some cl ∧
          isOpenBracket o = true ∧ isCloseBracket cl = true ∧
          isMatchingPair o cl = true ∧
          (∀ k c, openPos < k → k < closePos → cur.get? k = some c →
            isBracketChar c = false)) ∧
      (∀ openPos closePos lit,
        findLastOf isOpenBracket cur = some openPos →
        findFirstOfFrom isCloseBracket cur openPos = some closePos →
        (∀ c ∈ lit, isBracketChar c = false) →
        bracketRun (replaceInExpression cur openPos (closePos - openPos + 1) lit) []
          = .ok [])) ∧
    (∀ fuel steps, (evalLoop fuel e steps).1 ≠ .error .mismatchedBrackets) := by
  refine ⟨(validateExpression_ok hv).2, ?_,
    fun fuel steps => evalLoop_no_mismatch fuel e steps (validateExpression_ok hv).2⟩
  intro cur hbal
  constructor
  · intro openPos hfind
    rcases balanced_last_opener hbal hfind with
      ⟨a, o, m, cl, b, hsplit, hlen, hopen, hcl, hmatch, hm, hfff, -⟩
    refine ⟨openPos + (m.length + 1), o, cl, hfff, by omega, ?_, ?_, hopen, hcl,
      hmatch, ?_⟩
    · rw [hsplit, ← hlen, List.get?_append_right (le_refl _), Nat.sub_self]
      rfl
    · rw [hsplit, ← hlen, List.get?_append_right (by omega),
        show a.length + (m.length + 1) - a.length = m.length + 1 by omega,
        List.get?_cons_succ, List.get?_append_right (le_refl _), Nat.sub_self]
      rfl
    · intro k c hk1 hk2 hgc
      rw [hsplit] at hgc
      rw [← hlen] at hk1 hk2
      rw [List.get?_append_right (by omega)] at hgc
      rw [show k - a.length = (k - a.length - 1) + 1 by omega,
        List.get?_cons_succ] at hgc
      rw [List.get?_append (by omega)] at hgc
      exact hm c (List.get?_mem hgc)
  · intro openPos closePos lit hfind hclose hlit
    exact replace_preserves_balance hbal hfind hclose hlit

theorem bracket_geometry_invariant_witness :
    validateExpression "(2+3)".data = .ok () ∧
    (bracketRun "(2+3)".data [] = .ok [] ∧
    (∀ cur, bracketRun cur [] = .ok [] →
      (∀ openPos, findLastOf isOpenBracket cur = some openPos →
        ∃ closePos o cl,
          findFirstOfFrom isCloseBracket cur openPos = some closePos ∧
          openPos < closePos ∧
          cur.get? openPos = some o ∧ cur.get? closePos = some cl ∧
          isOpenBracket o = true ∧ isCloseBracket cl = true ∧
          isMatchingPair o cl = true ∧
          (∀ k c, openPos < k → k < closePos → cur.get? k = some c →
            isBracketChar c = false)) ∧
      (∀ openPos closePos lit,
        findLastOf isOpenBracket cur = some openPos →
        findFirstOfFrom isCloseBracket cur openPos = some closePos →
        (∀ c ∈ lit, isBracketChar c = false) →
        bracketRun (replaceInExpression cur openPos (closePos - openPos + 1) lit) []
          = .ok [])) ∧
    (∀ fuel steps,
      (evalLoop fuel "(2+3)".data steps).1 ≠ .error .mismatchedBrackets)) :=
  ⟨by decide, bracket_geometry_invariant "(2+3)".data (by decide)⟩

/-! ## Substitution preserves validator acceptance -/

/-- Locating a non-whitespace character inside the token area of a
margin decomposition: the split must land inside `t`. -/
theorem split_at_nonws {w1 t w2 a R : List Char} {o : Char}
    (heq : w1 ++ (t ++ w2) = a ++ o :: R)
    (hw1 : ∀ c ∈ w1, isWSChar c = true) (hw2 : ∀ c ∈ w2, isWSChar c = true)
    (ho : isWSChar o = false) :
    ∃ t1 t2, t = t1 ++ o :: t2 ∧ a = w1 ++ t1 ∧ R = t2 ++ w2 := by
  have hkey : ∃ k, a = w1 ++ k ∧ t ++ w2 = k ++ (o :: R) := by
    rcases List.append_eq_append_iff.mp heq with ⟨k, hk1, hk2⟩ | ⟨k, hk1, hk2⟩
    · exact ⟨k, hk1, hk2⟩
    · rcases k with - | ⟨y, ys⟩
      · refine ⟨[], by simpa using hk1.symm, ?_⟩
        simpa using hk2.symm
      · rw [List.cons_append] at hk2
        injection hk2 with hy hrest
        have : isWSChar o = true := by
          rw [hy]
          exact hw1 y (hk1 ▸ List.mem_append.mpr (Or.inr (List.mem_cons_self y ys)))
        rw [this] at ho
        exact absurd ho (by simp)
  rcases hkey with ⟨k, hk1, hk2⟩
  rcases List.append_eq_append_iff.mp hk2 with ⟨j, hj1, hj2⟩ | ⟨j, hj1, hj2⟩
  · have : isWSChar o = true :=
      hw2 o (hj2 ▸ List.mem_append.mpr (Or.inr (List.mem_cons_self o R)))
    rw [this] at ho
    exact absurd ho (by simp)
  · rcases j with - | ⟨y, t2⟩
    · have : isWSChar o = true := by
        have hm : o ∈ w2 := by
          have h2 : o :: R = w2 := by simpa using hj2
          rw [← h2]
          exact List.mem_cons_self o R
        exact hw2 o hm
      rw [this] at ho
      exact absurd ho (by simp)
    · rw [List.cons_append] at hj2
      injection hj2 with hy hR
      subst hy
      exact ⟨k, t2, hj1, hk1, hR⟩

/-- The second alignment: the closer also lies inside the token area. -/
theorem split_at_nonws_tail {m b t2 w2 : List Char} {cl : Char}
    (heq : m ++ cl :: b = t2 ++ w2)
    (hw2 : ∀ c ∈ w2, isWSChar c = true) (hcl : isWSChar cl = false) :
    ∃ t3, t2 = m ++ cl :: t3 ∧ b = t3 ++ w2 := by
  rcases List.append_eq_append_iff.mp heq with ⟨j, hj1, hj2⟩ | ⟨j, hj1, hj2⟩
  · rcases j with - | ⟨y, t3⟩
    · have : isWSChar cl = true := by
        have hm : cl ∈ w2 := by
          have h2 : cl :: b = w2 := by simpa using hj2
          rw [← h2]
          exact List.mem_cons_self cl b
        exact hw2 cl hm
      rw [this] at hcl
      exact absurd hcl (by simp)
    · rw [List.cons_append] at hj2
      injection hj2 with hy hb
      subst hy
      exact ⟨t3, by rw [hj1], hb⟩
  · have : isWSChar cl = true :=
      hw2 cl (hj2 ▸ List.mem_append.mpr (Or.inr (List.mem_cons_self cl b)))
    rw [this] at hcl
    exact absurd hcl (by simp)

/-- Replacing the token area between a matched bracket pair by a non-empty
token sequence keeps the whole string in the validation regex's language. -/
theorem subst_regex {e : List Char} (hm : VALID_EXPRESSION.rmatch e = true)
    {a : List Char} {o : Char} {m : List Char} {cl : Char} {b : List Char}
    (hsplit : e = a ++ o :: (m ++ cl :: b))
    (hopen : isOpenBracket o = true) (hcl : isCloseBracket cl = true)
    (lit : List Char) (hlit : TokSeq lit) (hlitne : lit ≠ []) :
    VALID_EXPRESSION.rmatch (a ++ lit ++ b) = true := by
  rcases valid_expression_iff.mp hm with ⟨w1, t, w2, hdecomp, hw1, hw2, hts, htne⟩
  have heq : w1 ++ (t ++ w2) = a ++ o :: (m ++ cl :: b) := hdecomp.symm.trans hsplit
  obtain ⟨t1, t2, ht_eq, ha_eq, hR_eq⟩ :=
    split_at_nonws heq hw1 hw2 (open_not_ws hopen)
  obtain ⟨t3, ht2_eq, hb_eq⟩ :=
    split_at_nonws_tail hR_eq hw2 (close_not_ws hcl)
  have hsplit1 := hts.split_at_bracket ht_eq (open_isBracket hopen)
  have ht2ts : TokSeq (m ++ cl :: t3) := ht2_eq ▸ hsplit1.2
  have hsplit2 := ht2ts.split_at_bracket rfl (close_isBracket hcl)
  apply valid_expression_iff.mpr
  refine ⟨w1, t1 ++ (lit ++ t3), w2, ?_, hw1, hw2, ?_, ?_⟩
  · rw [ha_eq, hb_eq]
    simp only [List.append_assoc]
  · exact TokSeq.append_ts hsplit1.1 (TokSeq.append_ts hlit hsplit2.2)
  · intro hnil
    rcases List.append_eq_nil.mp hnil with ⟨-, h2⟩
    rcases List.append_eq_nil.mp h2 with ⟨hl, -⟩
    exact hlitne hl

/-- The text-level effect of one substitution step: the matched span,
delimiters included, is replaced by the literal. -/
theorem replace_at_span {cur : List Char} {openPos closePos : Nat}
    (hbal : bracketRun cur [] = .ok [])
    (ho : findLastOf isOpenBracket cur = some openPos)
    (hc : findFirstOfFrom isCloseBracket cur openPos = some closePos)
    (lit : List Char) :
    ∃ a o m cl b, cur = a ++ o :: (m ++ cl :: b) ∧
      isOpenBracket o = true ∧ isCloseBracket cl = true ∧
      replaceInExpression cur openPos (closePos - openPos + 1) lit
        = a ++ lit ++ b := by
  rcases balanced_last_opener hbal ho with
    ⟨a, o, m, cl, b, hsplit, hlen, hopen, hcl, -, -, hfff, -⟩
  rw [hc] at hfff
  injection hfff with hcp
  subst hcp
  refine ⟨a, o, m, cl, b, hsplit, hopen, hcl, ?_⟩
  rw [replaceInExpression, hsplit, ← hlen, List.take_left]
  have hidx : a.length + (a.length + (m.length + 1) - a.length + 1)
      = a.length + (m.length + 2) := by omega
  rw [hidx]
  have hdropped : (a ++ o :: (m ++ cl :: b)).drop (a.length + (m.length + 2)) = b := by
    rw [List.drop_append]
    rw [show m.length + 2 = (m.length + 1) + 1 from rfl, List.drop_succ_cons]
    rw [show m.length + 1 = m.length + 1 from rfl, List.drop_append]
    rw [List.drop_succ_cons, List.drop_zero]
  rw [hdropped]

/-- Claim C1 (counterexample): on the accepted input `"(2-3)"` the bracket
resolution substitutes the literal `"-1"`, which does not match the Number
token grammar `\d+(\.\d+)?` — the substituted string is an operator token
followed by a number, not a fully-reduced numeric literal.  The last
conjunct records the second failure mode of the claimed invariant: the
text `"inf"`, which the C++ substitutes when `std::pow` saturates (the
validator accepts `"(9^999)"` and `std::pow(9.0, 999.0) = +inf`), is not
validator-accepted at all, so the working text is then ill-formed. -/
theorem negative_literal_cex :
    validateExpression "(2-3)".data = .ok () ∧
    findLastOf isOpenBracket "(2-3)".data = some 0 ∧
    findFirstOfFrom isCloseBracket "(2-3)".data 0 = some 4 ∧
    (evaluateSubExpression "(2-3)".data 1 3 []).1 = .ok "-1" ∧
    NUMBER_PATTERN.rmatch "-1".data = false ∧
    replaceInExpression "(2-3)".data 0 (4 - 0 + 1) "-1".data = "-1".data ∧
    validateExpression "(9^999)".data = .ok () ∧
    validateExpression "inf".data = .error .invalidFormat := by
  decide

/-- Claim C1 (amended): the well-formedness invariant holds only for the
resolution steps whose sub-result is rendered by `formatNumber` from a
finite value: replacing the matched bracket span (delimiters included) of
any validator-accepted text by the rendering of ANY rational — an optional
minus sign, then digits with at most one decimal point — yields a text the
validator accepts again.  The theorem deliberately quantifies over the
rendered value rather than over the program's computed sub-result: under
IEEE double semantics `^` can saturate and make the program substitute
`"inf"` or `"nan"`, strings the validator rejects (see the counterexample),
so the invariant is NOT universal over accepted inputs. -/
theorem subst_preserves_validator (e : List Char) (hv : validateExpression e = .ok ())
    (openPos closePos : Nat)
    (ho : findLastOf isOpenBracket e = some openPos)
    (hc : findFirstOfFrom isCloseBracket e openPos = some closePos)
    (v : ℚ) :
    validateExpression
      (replaceInExpression e openPos (closePos - openPos + 1) (formatNumber v).data)
      = .ok () := by
  obtain ⟨hm, hbal⟩ := validateExpression_ok hv
  obtain ⟨a, o, m, cl, b, hsplit, hopen, hcl, hrepl⟩ :=
    replace_at_span hbal ho hc (formatNumber v).data
  rw [hrepl, validateExpression]
  have hm2 : VALID_EXPRESSION.rmatch (a ++ (formatNumber v).data ++ b) = true :=
    subst_regex hm hsplit hopen hcl _ (formatNumber_tokSeq v) (formatNumber_ne_nil v)
  rw [if_pos hm2]
  have hb2 : bracketRun (a ++ (formatNumber v).data ++ b) [] = .ok [] := by
    have hpres := replace_preserves_balance hbal ho hc (formatNumber_no_brackets v)
    rw [hrepl] at hpres
    exact hpres
  rw [hb2]

theorem subst_preserves_validator_witness :
    (validateExpression "(2+3)".data = .ok () ∧
      findLastOf isOpenBracket "(2+3)".data = some 0 ∧
      findFirstOfFrom isCloseBracket "(2+3)".data 0 = some 4) ∧
    validateExpression (replaceInExpression "(2+3)".data 0 (4 - 0 + 1)
      (formatNumber (5 : ℚ)).data) = .ok () ∧
    validateExpression (replaceInExpression "(2+3)".data 0 (4 - 0 + 1)
      (formatNumber (qmk (-1) 1)).data) = .ok () :=
  ⟨⟨by decide, by decide, by decide⟩,
    subst_preserves_validator "(2+3)".data (by decide) 0 4 (by decide) (by decide) 5,
    subst_preserves_validator "(2+3)".data (by decide) 0 4 (by decide) (by decide)
      (qmk (-1) 1)⟩

end Calculator
